import Mathlib

/-!
Verification of the quiz bot's per-user session and score engine.

The development shallowly embeds the data model and the operations of the
bot's handlers and services:

* the `userQuiz` Mongo collection and the `updateOne`/`findOne` operations
  performed on it (`src/services/database.js`, the inline collection calls in
  `src/handlers/actionHandlers.js`, `src/unnamed/part_011`,
  `src/unnamed/part_012`);
* the in-memory per-user session (`src/services/sessionManager.js`);
* the start-quiz and answer callback handlers, in the two variants the
  repository contains (the guarded variant of `src/unnamed/part_011` /
  `src/unnamed/part_012`, and the unguarded variant of
  `src/handlers/actionHandlers.js`);
* the per-user delivery queues: the promise-chain queue of
  `src/handlers/actionHandlers.js` and the timed WebSocket queue of
  `src/services/sessionManager.js`.

Theorems about these definitions settle the frozen claims about the spec.
-/

namespace QuizBot

/-- A document of the `userQuiz` collection.  Fields mirror the documents the
source writes: `score` and `username` are optional because an upsert from the
completion write (`$set: { completed: true }`) creates a document without
them; `completed` absent and `completed: false` are indistinguishable to every
query in the source, so it is modelled as a plain `Bool`. -/
structure UserQuizRec where
  userId : Int
  quizId : Int
  score : Option Nat
  username : Option String
  completed : Bool
deriving DecidableEq

/-- The `userQuiz` collection: a list of documents in insertion order. -/
abbrev Store : Type := List UserQuizRec

/-- The equality filter `{ userId, quizId }` used by every `updateOne` and
`findOne` on the collection. -/
def matchesKey (uid qid : Int) (r : UserQuizRec) : Bool :=
  r.userId == uid && r.quizId == qid

/-- `findOne({ userId, quizId })`: first matching document, if any. -/
def findRec (store : Store) (uid qid : Int) : Option UserQuizRec :=
  store.find? (matchesKey uid qid)

/-- The document Mongo inserts on an upsert whose filter found no match: the
equality fields of the filter, and no other fields. -/
def freshDoc (uid qid : Int) : UserQuizRec :=
  ⟨uid, qid, none, none, false⟩

/-- `updateOne({ userId, quizId }, update, { upsert: true })`: apply `f` (the
update operators) to the first matching document; if none matches, insert a
new document built from the filter fields with `f` applied to it. -/
def mongoUpdateOne (store : Store) (uid qid : Int) (f : UserQuizRec → UserQuizRec) :
    Store :=
  match store with
  | [] => [f (freshDoc uid qid)]
  | r :: rs =>
    if matchesKey uid qid r then f r :: rs
    else r :: mongoUpdateOne rs uid qid f

/-- The update `{ $inc: { score: 1 }, $set: { username } }` of the answer
handlers (`src/handlers/actionHandlers.js` lines 157-161, `src/unnamed/part_012`
lines 154-159 and 459-468): `$inc` treats an absent `score` as `0`. -/
def applyIncAnswer (store : Store) (uid qid : Int) (uname : String) : Store :=
  mongoUpdateOne store uid qid
    (fun r => { r with score := some (r.score.getD 0 + 1), username := some uname })

/-- The completion update `{ $set: { completed: true } }` with upsert
(`src/handlers/actionHandlers.js` lines 229-233, `src/unnamed/part_011` lines
309-313, `src/unnamed/part_012` lines 218-222 and 521-525). -/
def applySetCompleted (store : Store) (uid qid : Int) : Store :=
  mongoUpdateOne store uid qid (fun r => { r with completed := true })

/-- The score the source reads back: `userQuiz?.score || 0`. -/
def scoreOf (store : Store) (uid qid : Int) : Nat :=
  ((findRec store uid qid).bind (fun r => r.score)).getD 0

/-- Whether the first `(userId, quizId)` document is flagged completed. -/
def completedOf (store : Store) (uid qid : Int) : Bool :=
  ((findRec store uid qid).map (fun r => r.completed)).getD false

/-- Whether a `(userId, quizId)` document exists at all. -/
def existsRec (store : Store) (uid qid : Int) : Bool :=
  (findRec store uid qid).isSome

/-- The `username` field of the first `(userId, quizId)` document. -/
def usernameOf (store : Store) (uid qid : Int) : Option String :=
  (findRec store uid qid).bind (fun r => r.username)

/-- The query built by `hasUserCompletedQuiz` (`src/services/database.js`
lines 103-125): `{ userId, completed: true }`, with `quizId` added only when a
quiz id is supplied. -/
def matchesCompletedQuery (uid : Int) (qid : Option Int) (r : UserQuizRec) : Bool :=
  r.userId == uid && r.completed &&
    (match qid with
     | none => true
     | some q => r.quizId == q)

/-- The successful-lookup core of `hasUserCompletedQuiz`
(`src/services/database.js` lines 109-120): `!!(await findOne(query))`. -/
def hasUserCompletedQuizPure (store : Store) (uid : Int) (qid : Option Int) : Bool :=
  (store.find? (matchesCompletedQuery uid qid)).isSome

/-- `hasUserCompletedQuiz` (`src/services/database.js` lines 103-125): the try
block connects and runs the `findOne`; the catch block logs and returns
`false`.  `conn` is the outcome of the fallible store access: an exception or
the collection contents. -/
def hasUserCompletedQuizDB (conn : Except Unit Store) (uid : Int) (qid : Option Int) :
    Bool :=
  match conn with
  | Except.error _ => false
  | Except.ok store => hasUserCompletedQuizPure store uid qid

/-- The durable writes the quiz flow performs on the collection: the
correct-answer write (`$inc` score / `$set` username, performed only when the
answer is correct) and the completion write (`$set completed: true`).  The
exported `updateQuizScore` / `updateUserQuizScore` helpers of
`src/services/database.js` are never called anywhere in the repository. -/
inductive QuizOp where
  | recordAnswer (uid qid : Int) (isCorrect : Bool) (uname : String)
  | markCompleted (uid qid : Int)
deriving DecidableEq

/-- Apply one durable write.  A wrong answer performs no store write at all:
the `updateOne` sits inside `if (isCorrect)` (`src/unnamed/part_012` lines
459-468) or inside the correct branch (`src/handlers/actionHandlers.js`
lines 139-161). -/
def applyQuizOp (store : Store) : QuizOp → Store
  | QuizOp.recordAnswer uid qid isCorrect uname =>
    if isCorrect then applyIncAnswer store uid qid uname else store
  | QuizOp.markCompleted uid qid => applySetCompleted store uid qid

/-- Apply a sequence of durable writes, oldest first. -/
def applyQuizOps (store : Store) (ops : List QuizOp) : Store :=
  ops.foldl applyQuizOp store

theorem matchesKey_congr (f : UserQuizRec → UserQuizRec)
    (hu : ∀ r, (f r).userId = r.userId) (hq : ∀ r, (f r).quizId = r.quizId)
    (u q : Int) (r : UserQuizRec) :
    matchesKey u q (f r) = matchesKey u q r := by
  unfold matchesKey
  rw [hu, hq]

theorem keys_of_matchesKey {uid qid : Int} {r : UserQuizRec}
    (h : matchesKey uid qid r = true) : r.userId = uid ∧ r.quizId = qid := by
  unfold matchesKey at h
  simpa using h

/-- An `updateOne({userId, quizId})` whose update preserves the key fields
leaves every other key's `findOne` result unchanged. -/
theorem findRec_mongoUpdateOne_other (store : Store) (uid qid : Int)
    (f : UserQuizRec → UserQuizRec)
    (hu : ∀ r, (f r).userId = r.userId) (hq : ∀ r, (f r).quizId = r.quizId)
    (u q : Int) (hne : ¬(u = uid ∧ q = qid)) :
    findRec (mongoUpdateOne store uid qid f) u q = findRec store u q := by
  induction store with
  | nil =>
    simp only [mongoUpdateOne, findRec, List.find?]
    have h1 : matchesKey u q (f (freshDoc uid qid)) = false := by
      rw [matchesKey_congr f hu hq]
      unfold matchesKey freshDoc
      simp only [beq_iff_eq, Bool.and_eq_false_iff]
      by_cases h : uid = u
      · right
        simp only [beq_eq_false_iff_ne, ne_eq]
        intro hq2
        exact hne ⟨h.symm, hq2.symm⟩
      · left
        simp only [beq_eq_false_iff_ne, ne_eq]
        intro hh
        exact h hh
    rw [h1]
  | cons r rs ih =>
    simp only [mongoUpdateOne]
    by_cases hk : matchesKey uid qid r = true
    · rw [if_pos hk]
      obtain ⟨hru, hrq⟩ := keys_of_matchesKey hk
      have hfr : matchesKey u q (f r) = false := by
        rw [matchesKey_congr f hu hq]
        unfold matchesKey
        rw [hru, hrq]
        simp only [beq_iff_eq, Bool.and_eq_false_iff]
        by_cases h : uid = u
        · right
          simp only [beq_eq_false_iff_ne, ne_eq]
          intro hq2
          exact hne ⟨h.symm, hq2.symm⟩
        · left
          simp only [beq_eq_false_iff_ne, ne_eq]
          intro hh
          exact h hh
      have hr : matchesKey u q r = false := by
        unfold matchesKey
        rw [hru, hrq]
        unfold matchesKey at hfr
        rw [hu, hq, hru, hrq] at hfr
        exact hfr
      simp only [findRec, List.find?, hfr, hr]
    · rw [if_neg hk]
      simp only [findRec, List.find?]
      cases hmk : matchesKey u q r
      · simpa [findRec] using ih
      · rfl

/-- An `updateOne({userId, quizId}, ..., {upsert: true})` whose update
preserves the key fields makes the key's `findOne` return the updated
document: the old first match if there was one, else the fresh upserted
document. -/
theorem findRec_mongoUpdateOne_self (store : Store) (uid qid : Int)
    (f : UserQuizRec → UserQuizRec)
    (hu : ∀ r, (f r).userId = r.userId) (hq : ∀ r, (f r).quizId = r.quizId) :
    findRec (mongoUpdateOne store uid qid f) uid qid
      = some (f ((findRec store uid qid).getD (freshDoc uid qid))) := by
  induction store with
  | nil =>
    simp only [mongoUpdateOne, findRec, List.find?]
    have h1 : matchesKey uid qid (f (freshDoc uid qid)) = true := by
      rw [matchesKey_congr f hu hq]
      unfold matchesKey freshDoc
      simp
    rw [h1]
    rfl
  | cons r rs ih =>
    simp only [mongoUpdateOne]
    by_cases hk : matchesKey uid qid r = true
    · rw [if_pos hk]
      have hfr : matchesKey uid qid (f r) = true := by
        rw [matchesKey_congr f hu hq]
        exact hk
      simp only [findRec, List.find?, hfr, hk]
      rfl
    · rw [if_neg hk]
      have hk2 : matchesKey uid qid r = false := by
        simpa using hk
      simp only [findRec, List.find?, hk2]
      simpa [findRec] using ih

theorem incAnswer_keeps_userId (uname : String) :
    ∀ r : UserQuizRec,
      ({ r with score := some (r.score.getD 0 + 1), username := some uname }
        : UserQuizRec).userId = r.userId := by
  intro r
  rfl

theorem incAnswer_keeps_quizId (uname : String) :
    ∀ r : UserQuizRec,
      ({ r with score := some (r.score.getD 0 + 1), username := some uname }
        : UserQuizRec).quizId = r.quizId := by
  intro r
  rfl

theorem setCompleted_keeps_userId :
    ∀ r : UserQuizRec, ({ r with completed := true } : UserQuizRec).userId = r.userId := by
  intro r
  rfl

theorem setCompleted_keeps_quizId :
    ∀ r : UserQuizRec, ({ r with completed := true } : UserQuizRec).quizId = r.quizId := by
  intro r
  rfl

/-- A single durable write never decreases the stored score of any key. -/
theorem scoreOf_applyQuizOp_mono (store : Store) (op : QuizOp) (u q : Int) :
    scoreOf store u q ≤ scoreOf (applyQuizOp store op) u q := by
  cases op with
  | recordAnswer uid qid isCorrect uname =>
    cases isCorrect with
    | false => simp [applyQuizOp]
    | true =>
      simp only [applyQuizOp, if_pos, applyIncAnswer]
      by_cases h : u = uid ∧ q = qid
      · obtain ⟨hu1, hq1⟩ := h
        subst hu1
        subst hq1
        unfold scoreOf
        rw [findRec_mongoUpdateOne_self store u q _
          (incAnswer_keeps_userId uname) (incAnswer_keeps_quizId uname)]
        cases hfind : findRec store u q with
        | none => simp [hfind, freshDoc]
        | some r => simp [hfind]
      · unfold scoreOf
        rw [findRec_mongoUpdateOne_other store uid qid _
          (incAnswer_keeps_userId uname) (incAnswer_keeps_quizId uname) u q h]
  | markCompleted uid qid =>
    simp only [applyQuizOp, applySetCompleted]
    by_cases h : u = uid ∧ q = qid
    · obtain ⟨hu1, hq1⟩ := h
      subst hu1
      subst hq1
      unfold scoreOf
      rw [findRec_mongoUpdateOne_self store u q _
        setCompleted_keeps_userId setCompleted_keeps_quizId]
      cases hfind : findRec store u q with
      | none => simp [hfind, freshDoc]
      | some r => simp [hfind]
    · unfold scoreOf
      rw [findRec_mongoUpdateOne_other store uid qid _
        setCompleted_keeps_userId setCompleted_keeps_quizId u q h]

/-- A single durable write never reverts a completed flag to false. -/
theorem completedOf_applyQuizOp_mono (store : Store) (op : QuizOp) (u q : Int)
    (h : completedOf store u q = true) :
    completedOf (applyQuizOp store op) u q = true := by
  cases op with
  | recordAnswer uid qid isCorrect uname =>
    cases isCorrect with
    | false => simpa [applyQuizOp] using h
    | true =>
      simp only [applyQuizOp, if_pos, applyIncAnswer]
      by_cases hk : u = uid ∧ q = qid
      · obtain ⟨hu1, hq1⟩ := hk
        subst hu1
        subst hq1
        unfold completedOf
        rw [findRec_mongoUpdateOne_self store u q _
          (incAnswer_keeps_userId uname) (incAnswer_keeps_quizId uname)]
        unfold completedOf at h
        cases hfind : findRec store u q with
        | none => simp [hfind] at h
        | some r =>
          rw [hfind] at h
          simpa [hfind] using h
      · unfold completedOf
        rw [findRec_mongoUpdateOne_other store uid qid _
          (incAnswer_keeps_userId uname) (incAnswer_keeps_quizId uname) u q hk]
        exact h
  | markCompleted uid qid =>
    simp only [applyQuizOp, applySetCompleted]
    by_cases hk : u = uid ∧ q = qid
    · obtain ⟨hu1, hq1⟩ := hk
      subst hu1
      subst hq1
      unfold completedOf
      rw [findRec_mongoUpdateOne_self store u q _
        setCompleted_keeps_userId setCompleted_keeps_quizId]
      simp
    · unfold completedOf
      rw [findRec_mongoUpdateOne_other store uid qid _
        setCompleted_keeps_userId setCompleted_keeps_quizId u q hk]
      exact h

/-- A single durable write never deletes a document. -/
theorem existsRec_applyQuizOp_mono (store : Store) (op : QuizOp) (u q : Int)
    (h : existsRec store u q = true) :
    existsRec (applyQuizOp store op) u q = true := by
  cases op with
  | recordAnswer uid qid isCorrect uname =>
    cases isCorrect with
    | false => simpa [applyQuizOp] using h
    | true =>
      simp only [applyQuizOp, if_pos, applyIncAnswer]
      by_cases hk : u = uid ∧ q = qid
      · obtain ⟨hu1, hq1⟩ := hk
        subst hu1
        subst hq1
        unfold existsRec
        rw [findRec_mongoUpdateOne_self store u q _
          (incAnswer_keeps_userId uname) (incAnswer_keeps_quizId uname)]
        rfl
      · unfold existsRec
        rw [findRec_mongoUpdateOne_other store uid qid _
          (incAnswer_keeps_userId uname) (incAnswer_keeps_quizId uname) u q hk]
        exact h
  | markCompleted uid qid =>
    simp only [applyQuizOp, applySetCompleted]
    by_cases hk : u = uid ∧ q = qid
    · obtain ⟨hu1, hq1⟩ := hk
      subst hu1
      subst hq1
      unfold existsRec
      rw [findRec_mongoUpdateOne_self store u q _
        setCompleted_keeps_userId setCompleted_keeps_quizId]
      rfl
    · unfold existsRec
      rw [findRec_mongoUpdateOne_other store uid qid _
        setCompleted_keeps_userId setCompleted_keeps_quizId u q hk]
      exact h

/-- The in-memory per-user session created by `getUserSession`
(`src/services/sessionManager.js` lines 26-36). -/
structure Session where
  lastMessageId : Option Nat
  currentQuizId : Option Int
  currentQuestionIndex : Option Nat
deriving DecidableEq

/-- The state `getUserSession` lazily initialises: all fields null. -/
def freshSession : Session :=
  ⟨none, none, none⟩

/-- A quiz question (`src/config/quizData`): prompt, options, the correct
option by value, and a reference link. -/
structure Question where
  question : String
  options : List String
  correct : String
  link : String
deriving DecidableEq

/-- A quiz definition: title and ordered questions. -/
structure Quiz where
  title : String
  questions : List Question
deriving DecidableEq

/-- Observable side effects of a handler run, in program order: Telegram
sends/deletes and the durable `userQuiz` writes. -/
inductive Effect where
  | deleteMsg
  | replyText
  | replyResult (correct : Bool)
  | scoreWrite (uid qid : Int)
  | questionSent (qid : Int) (questionIndex : Nat)
  | completionSent
  | completedWrite (uid qid : Int)
deriving DecidableEq

/-- Outcome of a `start_quiz_<id>` callback. -/
inductive StartOutcome where
  | alreadyCompleted
  | busy
  | unavailable
  | started
deriving DecidableEq

/-- Result of a start handler: outcome, session afterwards, effect trace. -/
structure StartResult where
  outcome : StartOutcome
  session : Session
  effects : List Effect
deriving DecidableEq

/-- The `start_quiz_(\d+)` action handler of `src/handlers/actionHandlers.js`
lines 87-117: global `hasUserCompletedQuiz(userId)` check (no quiz id), delete
the button message, quiz lookup, a "Starting quiz" reply, then
`sendQuizQuestion(bot, chat, quizId, 0, userId)` (lines 10-83), which deletes
the previous prompt if any, sends question 0 and stores
`(lastMessageId, currentQuizId, currentQuestionIndex)` into the session.
There is no busy-session check in this variant. -/
def startQuiz_AH (quizzes : Int → Option Quiz) (store : Store) (session : Session)
    (uid qid : Int) (msgId : Nat) : StartResult :=
  if hasUserCompletedQuizPure store uid none then
    ⟨StartOutcome.alreadyCompleted, session, []⟩
  else
    match quizzes qid with
    | none => ⟨StartOutcome.unavailable, session, [Effect.deleteMsg, Effect.replyText]⟩
    | some quiz =>
      match quiz.questions[0]? with
      | none =>
        ⟨StartOutcome.started, session,
          [Effect.deleteMsg, Effect.replyText, Effect.replyText]⟩
      | some _ =>
        ⟨StartOutcome.started, ⟨some msgId, some qid, some 0⟩,
          [Effect.deleteMsg, Effect.replyText] ++
            (match session.lastMessageId with
             | some _ => [Effect.deleteMsg]
             | none => []) ++
            [Effect.questionSent qid 0]⟩

/-- The `start_quiz_(\d+)` action handler of `src/unnamed/part_011` lines
132-191: global completion check, then the busy-session guard
(`userSession.currentQuizId !== null`, lines 147-153), quiz lookup, session
initialisation, deletion of the start message, and `sendQuizQuestion(..., 0)`
(lines 49-127), which re-stores the session fields and the sent message id. -/
def startQuiz_011 (quizzes : Int → Option Quiz) (store : Store) (session : Session)
    (uid qid : Int) (msgId : Nat) : StartResult :=
  if hasUserCompletedQuizPure store uid none then
    ⟨StartOutcome.alreadyCompleted, session, []⟩
  else if session.currentQuizId.isSome then
    ⟨StartOutcome.busy, session, []⟩
  else
    match quizzes qid with
    | none => ⟨StartOutcome.unavailable, session, [Effect.replyText]⟩
    | some _ =>
      ⟨StartOutcome.started, ⟨some msgId, some qid, some 0⟩,
        [Effect.deleteMsg, Effect.questionSent qid 0]⟩

/-- Outcome of a `q<quiz>_<question>_<option>_<user>` answer callback. -/
inductive AnswerOutcome where
  | foreign
  | noActive
  | staleState
  | answered (correct : Bool)
  | errorCaught
deriving DecidableEq

/-- Result of an answer handler: outcome, store and session afterwards, and
the effect trace in program order. -/
structure AnswerResult where
  outcome : AnswerOutcome
  store : Store
  session : Session
  effects : List Effect
deriving DecidableEq

/-- The answer action handler of `src/handlers/actionHandlers.js` lines
120-252.  It verifies only that the callback's userId matches the presser
(lines 125-128); there is no check of the session's current quiz or question
index.  On a correct answer it replies first (line 146) and performs the
`$inc` score write after (lines 157-161); a wrong answer writes nothing.  The
delayed continuation (lines 184-238) then sends the next question through
`sendQuizQuestion` (which updates the session) or, past the last question,
replies the completion summary, writes `completed: true` and deletes the
session. -/
def answer_AH (quizzes : Int → Option Quiz) (store : Store) (session : Session)
    (ctxUid : Int) (uname : String) (qid : Int) (qIdx aIdx : Nat) (cbUid : Int)
    (msgId : Nat) : AnswerResult :=
  if cbUid ≠ ctxUid then
    ⟨AnswerOutcome.foreign, store, session, []⟩
  else
    match quizzes qid with
    | none => ⟨AnswerOutcome.errorCaught, store, session, [Effect.replyText]⟩
    | some quiz =>
      match quiz.questions[qIdx]? with
      | none => ⟨AnswerOutcome.errorCaught, store, session, [Effect.replyText]⟩
      | some qd =>
        let isCorrect := qd.options[aIdx]? = some qd.correct
        let store1 := if isCorrect then applyIncAnswer store ctxUid qid uname else store
        let head :=
          [Effect.deleteMsg] ++
            (if isCorrect then
              [Effect.replyResult true, Effect.scoreWrite ctxUid qid]
            else
              [Effect.replyResult false])
        if qIdx + 1 < quiz.questions.length then
          ⟨AnswerOutcome.answered isCorrect, store1,
            ⟨some msgId, some qid, some (qIdx + 1)⟩,
            head ++
              (match session.lastMessageId with
               | some _ => [Effect.deleteMsg]
               | none => []) ++
              [Effect.questionSent qid (qIdx + 1)]⟩
        else
          ⟨AnswerOutcome.answered isCorrect,
            applySetCompleted store1 ctxUid qid, freshSession,
            head ++ [Effect.completionSent, Effect.completedWrite ctxUid qid]⟩

/-- The answer action handler of `src/unnamed/part_011` lines 194-332.  It
guards on an active session (lines 218-227) and on the callback matching the
session's current quiz and question index (lines 230-246); a mismatch is
acknowledged and changes nothing.  On a match it deletes the prompt, advances
`currentQuestionIndex`, replies and deletes the result message (this variant
performs no score write at all), then sends the next question or, past the
last question, replies the completion summary, writes `completed: true` and
clears the session (lines 276-319). -/
def answer_011 (quizzes : Int → Option Quiz) (store : Store) (session : Session)
    (uid qid : Int) (qIdx aIdx : Nat) (msgId : Nat) : AnswerResult :=
  if session.currentQuizId = none then
    ⟨AnswerOutcome.noActive, store, session, []⟩
  else if ¬(session.currentQuizId = some qid ∧
            session.currentQuestionIndex = some qIdx) then
    ⟨AnswerOutcome.staleState, store, session, []⟩
  else
    match quizzes qid with
    | none =>
      ⟨AnswerOutcome.errorCaught, store, freshSession,
        [Effect.deleteMsg, Effect.replyText]⟩
    | some quiz =>
      match quiz.questions[qIdx]? with
      | none =>
        ⟨AnswerOutcome.errorCaught, store, freshSession,
          [Effect.deleteMsg, Effect.replyText]⟩
      | some qd =>
        let isCorrect := qd.options[aIdx]? = some qd.correct
        let head := [Effect.deleteMsg, Effect.replyResult isCorrect, Effect.deleteMsg]
        if qIdx + 1 < quiz.questions.length then
          ⟨AnswerOutcome.answered isCorrect, store,
            ⟨some msgId, some qid, some (qIdx + 1)⟩,
            head ++ [Effect.questionSent qid (qIdx + 1)]⟩
        else
          ⟨AnswerOutcome.answered isCorrect, applySetCompleted store uid qid,
            freshSession,
            head ++ [Effect.completionSent, Effect.completedWrite uid qid]⟩

/-- Claim C3: over every sequence of answer-submission and completion writes,
the stored score of every `(userId, quizId)` key is non-decreasing, a
completed flag never reverts to false, and no document is removed (only the
separate `resetUserProgress` delete removes records). -/
theorem claim_C3_score_monotone (store : Store) (ops : List QuizOp) (u q : Int) :
    scoreOf store u q ≤ scoreOf (applyQuizOps store ops) u q ∧
    (completedOf store u q = true → completedOf (applyQuizOps store ops) u q = true) ∧
    (existsRec store u q = true → existsRec (applyQuizOps store ops) u q = true) := by
  induction ops generalizing store with
  | nil => exact ⟨Nat.le_refl _, fun h => h, fun h => h⟩
  | cons op ops ih =>
    have hstep := scoreOf_applyQuizOp_mono store op u q
    have hrest := ih (applyQuizOp store op)
    refine ⟨?_, ?_, ?_⟩
    · exact Nat.le_trans hstep hrest.1
    · intro h
      exact hrest.2.1 (completedOf_applyQuizOp_mono store op u q h)
    · intro h
      exact hrest.2.2 (existsRec_applyQuizOp_mono store op u q h)

theorem claim_C3_witness :
    scoreOf [⟨1, 1, some 2, none, true⟩] 1 1
        ≤ scoreOf (applyQuizOps [⟨1, 1, some 2, none, true⟩]
            [QuizOp.recordAnswer 1 1 true "a", QuizOp.markCompleted 1 1]) 1 1 ∧
    completedOf (applyQuizOps [⟨1, 1, some 2, none, true⟩]
        [QuizOp.recordAnswer 1 1 true "a", QuizOp.markCompleted 1 1]) 1 1 = true ∧
    existsRec (applyQuizOps [⟨1, 1, some 2, none, true⟩]
        [QuizOp.recordAnswer 1 1 true "a", QuizOp.markCompleted 1 1]) 1 1 = true :=
  ⟨(claim_C3_score_monotone [⟨1, 1, some 2, none, true⟩]
      [QuizOp.recordAnswer 1 1 true "a", QuizOp.markCompleted 1 1] 1 1).1,
   (claim_C3_score_monotone [⟨1, 1, some 2, none, true⟩]
      [QuizOp.recordAnswer 1 1 true "a", QuizOp.markCompleted 1 1] 1 1).2.1 (by decide),
   (claim_C3_score_monotone [⟨1, 1, some 2, none, true⟩]
      [QuizOp.recordAnswer 1 1 true "a", QuizOp.markCompleted 1 1] 1 1).2.2 (by decide)⟩

/-- Claim C4, counterexample: a wrong answer performs no store write at all,
so the stored display name is not refreshed (and an absent record would not
be created), contradicting "refreshes the stored displayName on every call
(correct or wrong answer)". -/
theorem claim_C4_counterexample :
    applyQuizOp [⟨7, 1, some 2, some "old", false⟩]
        (QuizOp.recordAnswer 7 1 false "new")
      = [⟨7, 1, some 2, some "old", false⟩] ∧
    usernameOf [⟨7, 1, some 2, some "old", false⟩] 7 1 = some "old" := by
  exact ⟨rfl, rfl⟩

/-- Claim C4, amended: the answer write happens only when the answer is
correct; it is then an upsert that increments the stored score by exactly 1,
sets the display name, and creates the record if absent, leaving every other
key untouched.  A wrong answer performs no store write. -/
theorem claim_C4_amended (store : Store) (uid qid : Int) (uname : String) :
    applyQuizOp store (QuizOp.recordAnswer uid qid false uname) = store ∧
    scoreOf (applyQuizOp store (QuizOp.recordAnswer uid qid true uname)) uid qid
      = scoreOf store uid qid + 1 ∧
    usernameOf (applyQuizOp store (QuizOp.recordAnswer uid qid true uname)) uid qid
      = some uname ∧
    existsRec (applyQuizOp store (QuizOp.recordAnswer uid qid true uname)) uid qid
      = true ∧
    (∀ u q : Int, ¬(u = uid ∧ q = qid) →
      findRec (applyQuizOp store (QuizOp.recordAnswer uid qid true uname)) u q
        = findRec store u q) := by
  refine ⟨rfl, ?_, ?_, ?_, ?_⟩
  · simp only [applyQuizOp, if_pos, applyIncAnswer]
    unfold scoreOf
    rw [findRec_mongoUpdateOne_self store uid qid _
      (incAnswer_keeps_userId uname) (incAnswer_keeps_quizId uname)]
    cases hfind : findRec store uid qid with
    | none => simp [hfind, freshDoc]
    | some r => simp [hfind]
  · simp only [applyQuizOp, if_pos, applyIncAnswer]
    unfold usernameOf
    rw [findRec_mongoUpdateOne_self store uid qid _
      (incAnswer_keeps_userId uname) (incAnswer_keeps_quizId uname)]
    rfl
  · simp only [applyQuizOp, if_pos, applyIncAnswer]
    unfold existsRec
    rw [findRec_mongoUpdateOne_self store uid qid _
      (incAnswer_keeps_userId uname) (incAnswer_keeps_quizId uname)]
    rfl
  · intro u q hne
    simp only [applyQuizOp, if_pos, applyIncAnswer]
    exact findRec_mongoUpdateOne_other store uid qid _
      (incAnswer_keeps_userId uname) (incAnswer_keeps_quizId uname) u q hne

theorem claim_C4_amended_witness :
    applyQuizOp ([] : Store) (QuizOp.recordAnswer 3 2 false "n") = [] ∧
    scoreOf (applyQuizOp ([] : Store) (QuizOp.recordAnswer 3 2 true "n")) 3 2
      = scoreOf ([] : Store) 3 2 + 1 ∧
    usernameOf (applyQuizOp ([] : Store) (QuizOp.recordAnswer 3 2 true "n")) 3 2
      = some "n" ∧
    existsRec (applyQuizOp ([] : Store) (QuizOp.recordAnswer 3 2 true "n")) 3 2
      = true ∧
    findRec (applyQuizOp ([] : Store) (QuizOp.recordAnswer 3 2 true "n")) 4 2
      = findRec ([] : Store) 4 2 := by
  have h := claim_C4_amended ([] : Store) 3 2 "n"
  exact ⟨h.1, h.2.1, h.2.2.1, h.2.2.2.1, h.2.2.2.2 4 2 (by decide)⟩

/-- An output document of the `getLeaderboard` aggregation
(`src/services/database.js` lines 181-194): `_id` (the user), `totalScore`
(`$sum` of `score`), `username` (`$first`), and `completedQuizzes`
(`$sum` of `$cond [completed, 1, 0]`). -/
structure LeaderboardEntry where
  userId : Int
  totalScore : Nat
  username : Option String
  completedQuizzes : Nat
deriving DecidableEq

/-- The `$group: { _id: userId, ... }` stage: one entry per distinct user,
with the accumulators evaluated over that user's documents.  Mongo leaves the
order of group outputs unspecified; the embedding fixes one permitted order
(the order `List.dedup` yields). -/
def groupByUser (store : Store) : List LeaderboardEntry :=
  ((store.map (fun r => r.userId)).dedup).map (fun u =>
    ⟨u,
      ((store.filter (fun r => r.userId == u)).map (fun r => r.score.getD 0)).sum,
      (store.find? (fun r => r.userId == u)).bind (fun r => r.username),
      (store.filter (fun r => r.userId == u && r.completed)).length⟩)

/-- Insertion step of the `$sort: { totalScore: -1 }` stage: descending by
`totalScore` alone — the pipeline names no secondary sort key, so ties stay
in whatever order the groups arrived in. -/
def insertByScore (e : LeaderboardEntry) :
    List LeaderboardEntry → List LeaderboardEntry
  | [] => [e]
  | x :: xs =>
    if x.totalScore ≤ e.totalScore then e :: x :: xs
    else x :: insertByScore e xs

/-- The `$sort: { totalScore: -1 }` stage. -/
def sortByScore (l : List LeaderboardEntry) : List LeaderboardEntry :=
  l.foldr insertByScore []

/-- `getLeaderboard(limit)` (`src/services/database.js` lines 174-199):
`$group`, `$sort { totalScore: -1 }`, `$limit: limit`.  A pure read of the
collection. -/
def getLeaderboard (store : Store) (limit : Nat) : List LeaderboardEntry :=
  (sortByScore (groupByUser store)).take limit

/-- The ordering the claim asserts, written from the spec's words: sorted by
`totalScore` descending with ties broken by `quizzesCompleted` descending.
This definition follows the claim, not the source, and exists only to be
compared against `getLeaderboard`. -/
def claimLexOrdered (l : List LeaderboardEntry) : Prop :=
  l.Pairwise (fun a b =>
    b.totalScore < a.totalScore ∨
      (a.totalScore = b.totalScore ∧ b.completedQuizzes ≤ a.completedQuizzes))

theorem mem_insertByScore (e y : LeaderboardEntry) (l : List LeaderboardEntry) :
    y ∈ insertByScore e l ↔ y = e ∨ y ∈ l := by
  induction l with
  | nil => simp [insertByScore]
  | cons x xs ih =>
    unfold insertByScore
    by_cases h : x.totalScore ≤ e.totalScore
    · rw [if_pos h]
      simp
    · rw [if_neg h]
      simp only [List.mem_cons, ih]
      tauto

theorem pairwise_insertByScore (e : LeaderboardEntry) (l : List LeaderboardEntry)
    (h : l.Pairwise (fun a b => b.totalScore ≤ a.totalScore)) :
    (insertByScore e l).Pairwise (fun a b => b.totalScore ≤ a.totalScore) := by
  induction l with
  | nil => simp [insertByScore]
  | cons x xs ih =>
    rw [List.pairwise_cons] at h
    unfold insertByScore
    by_cases hle : x.totalScore ≤ e.totalScore
    · rw [if_pos hle]
      refine List.pairwise_cons.mpr ⟨?_, List.pairwise_cons.mpr ⟨h.1, h.2⟩⟩
      intro y hy
      rcases List.mem_cons.mp hy with hy1 | hy2
      · rw [hy1]
        exact hle
      · exact Nat.le_trans (h.1 y hy2) hle
    · rw [if_neg hle]
      refine List.pairwise_cons.mpr ⟨?_, ih h.2⟩
      intro y hy
      rcases (mem_insertByScore e y xs).mp hy with hy1 | hy2
      · rw [hy1]
        exact Nat.le_of_lt (Nat.lt_of_not_le hle)
      · exact h.1 y hy2

theorem perm_insertByScore (e : LeaderboardEntry) (l : List LeaderboardEntry) :
    List.Perm (insertByScore e l) (e :: l) := by
  induction l with
  | nil => simp [insertByScore]
  | cons x xs ih =>
    unfold insertByScore
    by_cases h : x.totalScore ≤ e.totalScore
    · rw [if_pos h]
    · rw [if_neg h]
      exact List.Perm.trans (List.Perm.cons x ih) (List.Perm.swap e x xs)

theorem perm_sortByScore (l : List LeaderboardEntry) :
    List.Perm (sortByScore l) l := by
  induction l with
  | nil => simp [sortByScore]
  | cons x xs ih =>
    exact List.Perm.trans (perm_insertByScore x (sortByScore xs)) (List.Perm.cons x ih)

theorem pairwise_sortByScore (l : List LeaderboardEntry) :
    (sortByScore l).Pairwise (fun a b => b.totalScore ≤ a.totalScore) := by
  induction l with
  | nil => simp [sortByScore]
  | cons x xs ih => exact pairwise_insertByScore x (sortByScore xs) ih

theorem map_userId_groupByUser (store : Store) :
    (groupByUser store).map (fun e => e.userId)
      = (store.map (fun r => r.userId)).dedup := by
  unfold groupByUser
  rw [List.map_map]
  exact List.map_id' _

/-- A two-question quiz used as concrete input: both questions offer options
`a` and `b`, with `a` correct. -/
def demoQuestion : Question :=
  ⟨"q", ["a", "b"], "a", "l"⟩

/-- A two-question demo quiz. -/
def demoQuiz : Quiz :=
  ⟨"t", [demoQuestion, demoQuestion]⟩

/-- A quiz table with quizzes 1 and 2 available. -/
def demoQuizzes : Int → Option Quiz :=
  fun i => if i = 1 ∨ i = 2 then some demoQuiz else none

/-- Claim C1, counterexample: in the `start_quiz` handler of
`src/handlers/actionHandlers.js` there is no busy-session guard, so with a
session already active on quiz 1 a start request for quiz 2 is accepted, the
session is overwritten to quiz 2, and a second question-0 prompt is
delivered. -/
theorem claim_C1_counterexample :
    (startQuiz_AH demoQuizzes [] ⟨none, some 1, some 0⟩ 7 2 5).outcome
      = StartOutcome.started ∧
    (startQuiz_AH demoQuizzes [] ⟨none, some 1, some 0⟩ 7 2 5).session.currentQuizId
      = some 2 ∧
    (startQuiz_AH demoQuizzes [] ⟨none, some 1, some 0⟩ 7 2 5).effects.count
      (Effect.questionSent 2 0) = 1 := by
  decide

/-- Claim C1, amended: only the `src/unnamed/part_011` variant of the
`start_quiz` handler enforces the invariant, and in it a start request while
a session is active is rejected (with the busy notice unless the preceding
global completion check fires first) without changing the session or sending
anything; any accepted start emits exactly one question-0 prompt.  The
`src/handlers/actionHandlers.js` variant has no busy guard and accepts
concurrent starts. -/
theorem claim_C1_amended (quizzes : Int → Option Quiz) (store : Store)
    (session : Session) (uid qid : Int) (msgId : Nat) (q0 : Int) :
    (session.currentQuizId = some q0 →
      (startQuiz_011 quizzes store session uid qid msgId).session = session ∧
      (startQuiz_011 quizzes store session uid qid msgId).effects = [] ∧
      ((startQuiz_011 quizzes store session uid qid msgId).outcome = StartOutcome.busy ∨
       (startQuiz_011 quizzes store session uid qid msgId).outcome
         = StartOutcome.alreadyCompleted) ∧
      (hasUserCompletedQuizPure store uid none = false →
        (startQuiz_011 quizzes store session uid qid msgId).outcome
          = StartOutcome.busy)) ∧
    ((startQuiz_011 quizzes store session uid qid msgId).outcome
        = StartOutcome.started →
      (startQuiz_011 quizzes store session uid qid msgId).effects
        = [Effect.deleteMsg, Effect.questionSent qid 0]) := by
  unfold startQuiz_011
  by_cases hc : hasUserCompletedQuizPure store uid none = true
  · rw [if_pos hc]
    refine ⟨fun _ => ⟨rfl, rfl, Or.inr rfl, fun hf => ?_⟩, fun hs => ?_⟩
    · rw [hc] at hf
      exact absurd hf (by simp)
    · exact absurd hs (by simp)
  · rw [if_neg hc]
    by_cases hb : session.currentQuizId.isSome = true
    · rw [if_pos hb]
      exact ⟨fun _ => ⟨rfl, rfl, Or.inl rfl, fun _ => rfl⟩, fun hs => absurd hs (by simp)⟩
    · rw [if_neg hb]
      refine ⟨fun hq => ?_, fun hs => ?_⟩
      · rw [hq] at hb
        exact absurd rfl hb
      · cases hqz : quizzes qid with
        | none => simp [hqz] at hs
        | some quiz => simp [hqz]

theorem claim_C1_amended_witness :
    ((startQuiz_011 demoQuizzes [] ⟨none, some 1, some 0⟩ 7 2 5).session
        = ⟨none, some 1, some 0⟩ ∧
      (startQuiz_011 demoQuizzes [] ⟨none, some 1, some 0⟩ 7 2 5).outcome
        = StartOutcome.busy) ∧
    (startQuiz_011 demoQuizzes [] freshSession 7 2 5).effects
      = [Effect.deleteMsg, Effect.questionSent 2 0] := by
  have h1 := (claim_C1_amended demoQuizzes [] ⟨none, some 1, some 0⟩ 7 2 5 1).1 rfl
  have h2 := (claim_C1_amended demoQuizzes [] freshSession 7 2 5 1).2 (by decide)
  exact ⟨⟨h1.1, h1.2.2.2 (by decide)⟩, h2⟩

/-- Claim C5, counterexample: the answer handler of
`src/handlers/actionHandlers.js` has no session-state guard, so a stale
callback for question 0 arriving while the session is at question 1 is
processed: the score is written again and another question prompt is sent,
instead of the claimed rejection with no score write. -/
theorem claim_C5_counterexample :
    (answer_AH demoQuizzes [] ⟨none, some 1, some 1⟩ 7 "u" 1 0 0 7 9).outcome
      = AnswerOutcome.answered true ∧
    scoreOf (answer_AH demoQuizzes [] ⟨none, some 1, some 1⟩ 7 "u" 1 0 0 7 9).store 7 1
      = 1 ∧
    scoreOf [] 7 1 = 0 ∧
    Effect.questionSent 1 1
      ∈ (answer_AH demoQuizzes [] ⟨none, some 1, some 1⟩ 7 "u" 1 0 0 7 9).effects := by
  decide

/-- Claim C5, amended: only the guarded variants reject stale callbacks: in
the `src/unnamed/part_011` answer handler, a callback whose quiz id or
question index differs from the session's current state is rejected with the
invalid-state notice, with no store write, no session change, and no message
effects.  The `src/handlers/actionHandlers.js` variant has no such guard and
processes stale callbacks. -/
theorem claim_C5_amended (quizzes : Int → Option Quiz) (store : Store)
    (session : Session) (uid qid : Int) (qIdx aIdx msgId : Nat) (q0 : Int) (i0 : Nat)
    (hq : session.currentQuizId = some q0)
    (hi : session.currentQuestionIndex = some i0)
    (hmis : qid ≠ q0 ∨ qIdx ≠ i0) :
    answer_011 quizzes store session uid qid qIdx aIdx msgId
      = ⟨AnswerOutcome.staleState, store, session, []⟩ := by
  unfold answer_011
  rw [hq, hi]
  rw [if_neg (by simp)]
  rw [if_pos]
  intro hand
  obtain ⟨h1, h2⟩ := hand
  cases hmis with
  | inl h => exact h (Option.some.inj h1).symm
  | inr h => exact h (Option.some.inj h2).symm

theorem claim_C5_amended_witness :
    answer_011 demoQuizzes [] ⟨none, some 1, some 1⟩ 7 1 0 0 9
      = ⟨AnswerOutcome.staleState, [], ⟨none, some 1, some 1⟩, []⟩ :=
  claim_C5_amended demoQuizzes [] ⟨none, some 1, some 1⟩ 7 1 0 0 9 1 1 rfl rfl
    (Or.inr (by decide))

/-- Claim C8, counterexample: the `start_quiz` handler calls
`hasUserCompletedQuiz(userId)` with no quiz id, so a user with a completed
record for quiz 1 is rejected with the already-completed notice when starting
quiz 2, even though no completed record exists for the `(userId, quizId)`
pair being started. -/
theorem claim_C8_counterexample :
    (startQuiz_AH demoQuizzes [⟨7, 1, none, none, true⟩] freshSession 7 2 5).outcome
      = StartOutcome.alreadyCompleted ∧
    hasUserCompletedQuizPure [⟨7, 1, none, none, true⟩] 7 (some 2) = false := by
  decide

/-- Claim C8, amended: the start handler rejects with the already-completed
notice exactly when the user has a completed record for ANY quiz (the check
is `hasUserCompletedQuiz(userId)` with the quiz id omitted), and in that case
the session is untouched and nothing is sent. -/
theorem claim_C8_amended (quizzes : Int → Option Quiz) (store : Store)
    (session : Session) (uid qid : Int) (msgId : Nat) :
    ((startQuiz_AH quizzes store session uid qid msgId).outcome
        = StartOutcome.alreadyCompleted
      ↔ hasUserCompletedQuizPure store uid none = true) ∧
    (hasUserCompletedQuizPure store uid none = true →
      (startQuiz_AH quizzes store session uid qid msgId).session = session ∧
      (startQuiz_AH quizzes store session uid qid msgId).effects = []) := by
  unfold startQuiz_AH
  by_cases hc : hasUserCompletedQuizPure store uid none = true
  · rw [if_pos hc]
    exact ⟨⟨fun _ => hc, fun _ => rfl⟩, fun _ => ⟨rfl, rfl⟩⟩
  · rw [if_neg hc]
    refine ⟨⟨fun ho => ?_, fun hcc => absurd hcc hc⟩, fun hcc => absurd hcc hc⟩
    cases hqz : quizzes qid with
    | none => simp [hqz] at ho
    | some quiz =>
      cases hg : quiz.questions[0]? with
      | none => simp [hqz, hg] at ho
      | some q => simp [hqz, hg] at ho

theorem claim_C8_amended_witness :
    (startQuiz_AH demoQuizzes [⟨3, 1, none, none, true⟩] freshSession 3 2 5).outcome
      = StartOutcome.alreadyCompleted ∧
    (startQuiz_AH demoQuizzes [⟨3, 1, none, none, true⟩] freshSession 3 2 5).session
      = freshSession ∧
    (startQuiz_AH demoQuizzes [⟨3, 1, none, none, true⟩] freshSession 3 2 5).effects
      = [] := by
  have h := claim_C8_amended demoQuizzes [⟨3, 1, none, none, true⟩] freshSession 3 2 5
  have h2 := h.2 (by decide)
  exact ⟨h.1.mpr (by decide), h2.1, h2.2⟩

/-- In the effect trace of a correct answer in the
`src/handlers/actionHandlers.js` handler, any prefix containing the score
write also contains the earlier result reply. -/
theorem scoreWrite_prefix_has_reply (uid qid : Int) (rest : List Effect) :
    ∀ n,
      Effect.scoreWrite uid qid ∈
        (Effect.deleteMsg :: Effect.replyResult true ::
          Effect.scoreWrite uid qid :: rest).take n →
      Effect.replyResult true ∈
        (Effect.deleteMsg :: Effect.replyResult true ::
          Effect.scoreWrite uid qid :: rest).take n := by
  intro n h
  match n with
  | 0 => simp at h
  | 1 => simp [List.take] at h
  | (m + 2) => simp [List.take]

/-- Claim C6, counterexample: the cited answer handlers reply with the
result message BEFORE performing the score write, so there is an execution
prefix (a crash point) in which the confirmation was shown but the answer
was never recorded: the converse of the claimed ordering. -/
theorem claim_C6_counterexample :
    Effect.replyResult true
      ∈ ((answer_AH demoQuizzes [] ⟨none, some 1, some 0⟩ 7 "u" 1 0 0 7 9).effects.take 2) ∧
    Effect.scoreWrite 7 1
      ∉ ((answer_AH demoQuizzes [] ⟨none, some 1, some 0⟩ 7 "u" 1 0 0 7 9).effects.take 2) ∧
    Effect.scoreWrite 7 1
      ∈ (answer_AH demoQuizzes [] ⟨none, some 1, some 0⟩ 7 "u" 1 0 0 7 9).effects := by
  decide

/-- Claim C6, amended: the ordering is the reverse of the claimed one: in
the answer handler the result reply happens-before the `$inc` score write, so
every prefix of the effect trace containing the score write already contains
the result confirmation, and a crash between the two shows a confirmation for
an answer that was not recorded. -/
theorem claim_C6_amended (quizzes : Int → Option Quiz) (store : Store)
    (session : Session) (uid : Int) (uname : String) (qid : Int)
    (qIdx aIdx msgId : Nat) (quiz : Quiz) (qd : Question)
    (hquiz : quizzes qid = some quiz)
    (hqd : quiz.questions[qIdx]? = some qd)
    (hopt : qd.options[aIdx]? = some qd.correct) :
    ∀ n,
      Effect.scoreWrite uid qid
        ∈ ((answer_AH quizzes store session uid uname qid qIdx aIdx uid msgId).effects.take n) →
      Effect.replyResult true
        ∈ ((answer_AH quizzes store session uid uname qid qIdx aIdx uid msgId).effects.take n) := by
  unfold answer_AH
  rw [if_neg (by simp)]
  rw [hquiz]
  simp only []
  rw [hqd]
  simp only [hopt, if_pos rfl]
  by_cases hlt : qIdx + 1 < quiz.questions.length
  · rw [if_pos hlt]
    cases session.lastMessageId with
    | none =>
      simpa using scoreWrite_prefix_has_reply uid qid [Effect.questionSent qid (qIdx + 1)]
    | some m =>
      simpa using scoreWrite_prefix_has_reply uid qid
        [Effect.deleteMsg, Effect.questionSent qid (qIdx + 1)]
  · rw [if_neg hlt]
    simpa using scoreWrite_prefix_has_reply uid qid
      [Effect.completionSent, Effect.completedWrite uid qid]

theorem claim_C6_amended_witness :
    Effect.replyResult true
      ∈ ((answer_AH demoQuizzes [] freshSession 8 "u" 1 0 0 8 9).effects.take 3) :=
  claim_C6_amended demoQuizzes [] freshSession 8 "u" 1 0 0 9 demoQuiz demoQuestion
    (by decide) (by decide) (by decide) 3 (by decide)

/-- Claim C9, counterexample: `getLeaderboard` sorts by `totalScore` alone
(`$sort: { totalScore: -1 }`, no secondary key), so two users tied at 5
points may come back with the lower `completedQuizzes` count first, violating
the claimed quizzesCompleted-descending tie-break. -/
theorem claim_C9_counterexample :
    getLeaderboard
        [⟨1, 1, some 5, none, true⟩, ⟨2, 1, some 5, none, true⟩,
          ⟨2, 2, some 0, none, true⟩] 10
      = [⟨1, 5, none, 1⟩, ⟨2, 5, none, 2⟩] ∧
    ¬claimLexOrdered
        (getLeaderboard
          [⟨1, 1, some 5, none, true⟩, ⟨2, 1, some 5, none, true⟩,
            ⟨2, 2, some 0, none, true⟩] 10) := by
  constructor
  · decide
  · intro h
    unfold claimLexOrdered at h
    have h2 := (by decide :
      getLeaderboard
          [⟨1, 1, some 5, none, true⟩, ⟨2, 1, some 5, none, true⟩,
            ⟨2, 2, some 0, none, true⟩] 10
        = [⟨1, 5, none, 1⟩, ⟨2, 5, none, 2⟩])
    rw [h2] at h
    have h3 := (List.pairwise_cons.mp h).1 ⟨2, 5, none, 2⟩ (by simp)
    rcases h3 with h4 | h4
    · exact absurd h4 (by decide)
    · exact absurd h4.2 (by decide)

/-- Claim C9, amended: `getLeaderboard(limit)` returns at most `limit`
entries, one per user, each carrying that user's total score (sum of the
per-quiz `score` fields), first-seen username, and count of completed
records; the result is sorted by `totalScore` descending but with NO
secondary tie-break (ties keep group order), and the aggregation performs no
writes (it is a pure read of the collection). -/
theorem claim_C9_amended (store : Store) (limit : Nat) :
    (getLeaderboard store limit).length ≤ limit ∧
    ((getLeaderboard store limit).map (fun e => e.userId)).Nodup ∧
    (getLeaderboard store limit).Pairwise
      (fun a b => b.totalScore ≤ a.totalScore) ∧
    (∀ e ∈ getLeaderboard store limit,
      e.totalScore
          = ((store.filter (fun r => r.userId == e.userId)).map
              (fun r => r.score.getD 0)).sum ∧
      e.completedQuizzes
          = (store.filter (fun r => r.userId == e.userId && r.completed)).length ∧
      ∃ r ∈ store, r.userId = e.userId) := by
  have hperm : List.Perm (sortByScore (groupByUser store)) (groupByUser store) :=
    perm_sortByScore (groupByUser store)
  refine ⟨?_, ?_, ?_, ?_⟩
  · unfold getLeaderboard
    rw [List.length_take]
    exact Nat.min_le_left _ _
  · have hnd : ((groupByUser store).map (fun e => e.userId)).Nodup := by
      rw [map_userId_groupByUser]
      exact List.nodup_dedup _
    have hnd2 : ((sortByScore (groupByUser store)).map (fun e => e.userId)).Nodup :=
      (List.Perm.nodup_iff (List.Perm.map _ hperm)).mpr hnd
    unfold getLeaderboard
    exact hnd2.sublist ((List.take_sublist _ _).map _)
  · unfold getLeaderboard
    exact (pairwise_sortByScore (groupByUser store)).sublist (List.take_sublist _ _)
  · intro e he
    have he2 : e ∈ sortByScore (groupByUser store) :=
      List.mem_of_mem_take he
    have he3 : e ∈ groupByUser store := (List.Perm.mem_iff hperm).mp he2
    unfold groupByUser at he3
    rcases List.mem_map.mp he3 with ⟨u, hu, hue⟩
    subst hue
    refine ⟨rfl, rfl, ?_⟩
    have hu2 : u ∈ store.map (fun r => r.userId) := List.mem_dedup.mp hu
    rcases List.mem_map.mp hu2 with ⟨r, hr, hru⟩
    exact ⟨r, hr, hru⟩

theorem claim_C9_amended_witness :
    (getLeaderboard [⟨5, 1, some 3, none, true⟩] 10).length ≤ 10 ∧
    (getLeaderboard [⟨5, 1, some 3, none, true⟩] 10).Pairwise
      (fun a b => b.totalScore ≤ a.totalScore) ∧
    ((⟨5, 3, none, 1⟩ : LeaderboardEntry).totalScore
      = ((List.filter (fun r => r.userId == (5 : Int))
            ([⟨5, 1, some 3, none, true⟩] : Store)).map
          (fun r => r.score.getD 0)).sum) := by
  have h := claim_C9_amended [⟨5, 1, some 3, none, true⟩] 10
  refine ⟨h.1, h.2.2.1, ?_⟩
  have h4 := h.2.2.2 ⟨5, 3, none, 1⟩ (by decide)
  simpa using h4.1

/-- Claim C10: `hasUserCompletedQuiz` maps any thrown store failure to
`false` instead of propagating it, and on a successful lookup returns whether
a completed record matches the query. -/
theorem claim_C10_failure_returns_false :
    (∀ (e : Unit) (uid : Int) (qid : Option Int),
        hasUserCompletedQuizDB (Except.error e) uid qid = false) ∧
    (∀ (store : Store) (uid : Int) (qid : Option Int),
        hasUserCompletedQuizDB (Except.ok store) uid qid
          = hasUserCompletedQuizPure store uid qid) :=
  ⟨fun _ _ _ => rfl, fun _ _ _ => rfl⟩

/-- State of the per-user promise chains (`messageQueue` in
`src/handlers/actionHandlers.js` lines 8-16 and 81): for each user, the list
of queued task ids not yet started (head next to run, appended at the tail by
`messageQueue.set(userId, currentQueue.then(task))`), and the task currently
running, if any.  A task starts only when the previous promise in that user's
chain has resolved; chains of different users are independent. -/
structure ChainState where
  pending : Nat → List Nat
  running : Nat → Option Nat

/-- Observable delivery events: a task's callback starting, and finishing. -/
inductive ChainEv where
  | starts (u t : Nat)
  | dones (u t : Nat)
deriving DecidableEq

/-- The event-loop steps of the per-user chains.  `starts` fires the head
task of a user's chain when that user has nothing running (the previous
`.then` resolved); `dones` completes the running task.  Steps of different
users interleave arbitrarily, as on the event loop. -/
inductive ChainStep : ChainState → ChainEv → ChainState → Prop where
  | starts {s : ChainState} {u t : Nat} {rest : List Nat}
      (hrun : s.running u = none) (hpend : s.pending u = t :: rest) :
      ChainStep s (ChainEv.starts u t)
        ⟨fun v => if v = u then rest else s.pending v,
         fun v => if v = u then some t else s.running v⟩
  | dones {s : ChainState} {u t : Nat} (hrun : s.running u = some t) :
      ChainStep s (ChainEv.dones u t)
        ⟨s.pending, fun v => if v = u then none else s.running v⟩

/-- Executions: sequences of chain steps, recorded oldest first. -/
inductive ChainTrace : ChainState → List ChainEv → ChainState → Prop where
  | nil (s : ChainState) : ChainTrace s [] s
  | snoc {s s1 s2 : ChainState} {tr : List ChainEv} {e : ChainEv}
      (h1 : ChainTrace s tr s1) (h2 : ChainStep s1 e s2) :
      ChainTrace s (tr ++ [e]) s2

/-- Initial state: every user's queued tasks, nothing running. -/
def chainInit (q : Nat → List Nat) : ChainState :=
  ⟨q, fun _ => none⟩

/-- The user an event belongs to. -/
def evUser : ChainEv → Nat
  | ChainEv.starts u _ => u
  | ChainEv.dones u _ => u

/-- Projection of a trace onto one user's events. -/
def projUser (u : Nat) (tr : List ChainEv) : List ChainEv :=
  tr.filter (fun e => evUser e == u)

/-- The fully serialized event sequence of a task list: each task starts and
finishes before the next starts. -/
def canonEvents (u : Nat) (l : List Nat) : List ChainEv :=
  l.flatMap (fun t => [ChainEv.starts u t, ChainEv.dones u t])

theorem mem_canonEvents_starts (u x : Nat) (l : List Nat) :
    ChainEv.starts u x ∈ canonEvents u l ↔ x ∈ l := by
  unfold canonEvents
  simp

theorem mem_canonEvents_dones (u x : Nat) (l : List Nat) :
    ChainEv.dones u x ∈ canonEvents u l ↔ x ∈ l := by
  unfold canonEvents
  simp

/-- Per-user inductive invariant of the chain system: each user has executed
a fully serialized prefix of its initial queue, possibly with the next task
started but not finished, and its pending list is the remaining suffix. -/
def chainInv (q0 : Nat → List Nat) (tr : List ChainEv) (s : ChainState) : Prop :=
  ∀ u, ∃ k, k ≤ (q0 u).length ∧
    ((s.running u = none ∧ s.pending u = (q0 u).drop k ∧
      projUser u tr = canonEvents u ((q0 u).take k)) ∨
     (∃ t rest, s.running u = some t ∧ (q0 u).drop k = t :: rest ∧
      s.pending u = rest ∧
      projUser u tr = canonEvents u ((q0 u).take k) ++ [ChainEv.starts u t]))

theorem chainInv_init (q0 : Nat → List Nat) :
    chainInv q0 [] (chainInit q0) := by
  intro u
  refine ⟨0, Nat.zero_le _, Or.inl ⟨rfl, ?_, ?_⟩⟩
  · simp [chainInit]
  · simp [projUser, canonEvents]

theorem projUser_snoc (u : Nat) (tr : List ChainEv) (e : ChainEv) :
    projUser u (tr ++ [e])
      = projUser u tr ++ (if evUser e = u then [e] else []) := by
  unfold projUser
  rw [List.filter_append]
  by_cases h : evUser e = u
  · simp [h]
  · simp [h]

theorem chainInv_step (q0 : Nat → List Nat) (tr : List ChainEv)
    (s s2 : ChainState) (e : ChainEv)
    (hinv : chainInv q0 tr s) (hstep : ChainStep s e s2) :
    chainInv q0 (tr ++ [e]) s2 := by
  cases hstep with
  | starts hrun hpend =>
    rename_i u t rest
    intro v
    obtain ⟨k, hk, hcase⟩ := hinv v
    by_cases hv : v = u
    · subst hv
      rcases hcase with ⟨h1, h2, h3⟩ | ⟨t', rest', h1, h2, h3, h4⟩
      · refine ⟨k, hk, Or.inr ⟨t, rest, ?_, ?_, ?_, ?_⟩⟩
        · simp
        · rw [← h2]
          exact hpend
        · simp
        · rw [projUser_snoc, h3]
          simp [evUser]
      · rw [h1] at hrun
        cases hrun
    · have hvu : ¬(u = v) := fun h => hv h.symm
      rcases hcase with ⟨h1, h2, h3⟩ | ⟨t', rest', h1, h2, h3, h4⟩
      · refine ⟨k, hk, Or.inl ⟨?_, ?_, ?_⟩⟩
        · simp [hv, h1]
        · simp [hv, h2]
        · rw [projUser_snoc]
          simp [evUser, hvu, h3]
      · refine ⟨k, hk, Or.inr ⟨t', rest', ?_, h2, ?_, ?_⟩⟩
        · simp [hv, h1]
        · simp [hv, h3]
        · rw [projUser_snoc]
          simp [evUser, hvu, h4]
  | dones hrun =>
    rename_i u t
    intro v
    obtain ⟨k, hk, hcase⟩ := hinv v
    by_cases hv : v = u
    · subst hv
      rcases hcase with ⟨h1, h2, h3⟩ | ⟨t', rest', h1, h2, h3, h4⟩
      · rw [h1] at hrun
        cases hrun
      · rw [h1] at hrun
        injection hrun with ht
        subst ht
        have hkl : k < (q0 v).length := by
          by_contra hge
          have hnil : (q0 v).drop k = [] :=
            List.drop_eq_nil_of_le (Nat.le_of_not_lt hge)
          rw [hnil] at h2
          cases h2
        have hgetk : (q0 v)[k]? = some t' := by
          have h6 := List.getElem?_drop (q0 v) k 0
          rw [h2] at h6
          simpa using h6.symm
        refine ⟨k + 1, hkl, Or.inl ⟨?_, ?_, ?_⟩⟩
        · simp
        · have hdrop : (q0 v).drop (k + 1) = rest' := by
            have h5 : ((q0 v).drop k).drop 1 = (q0 v).drop (k + 1) := by
              rw [List.drop_drop]
            rw [← h5, h2]
            rfl
          show s.pending v = (q0 v).drop (k + 1)
          rw [hdrop]
          exact h3
        · rw [projUser_snoc, h4]
          have htake : (q0 v).take (k + 1) = (q0 v).take k ++ [t'] := by
            rw [List.take_succ, hgetk]
            rfl
          rw [htake]
          unfold canonEvents
          rw [List.flatMap_append]
          simp [evUser, canonEvents]
    · have hvu : ¬(u = v) := fun h => hv h.symm
      rcases hcase with ⟨h1, h2, h3⟩ | ⟨t', rest', h1, h2, h3, h4⟩
      · refine ⟨k, hk, Or.inl ⟨?_, h2, ?_⟩⟩
        · simp [hv, h1]
        · rw [projUser_snoc]
          simp [evUser, hvu, h3]
      · refine ⟨k, hk, Or.inr ⟨t', rest', ?_, h2, h3, ?_⟩⟩
        · simp [hv, h1]
        · rw [projUser_snoc]
          simp [evUser, hvu, h4]

/-- Every execution from an initial chain state satisfies the invariant. -/
theorem chainInv_of_trace (q0 : Nat → List Nat) (tr : List ChainEv)
    (s : ChainState) (h : ChainTrace (chainInit q0) tr s) :
    chainInv q0 tr s := by
  induction h with
  | nil => exact chainInv_init q0
  | snoc h1 h2 ih => exact chainInv_step q0 _ _ _ _ ih h2

/-- Any prefix of an execution is an execution. -/
theorem chainTrace_take (s0 : ChainState) (tr : List ChainEv) (s : ChainState)
    (h : ChainTrace s0 tr s) (n : Nat) :
    ∃ s1, ChainTrace s0 (tr.take n) s1 := by
  induction h with
  | nil =>
    rw [List.take_nil]
    exact ⟨s0, ChainTrace.nil s0⟩
  | @snoc s1 s2 tr e h1 h2 ih =>
    by_cases hn : n ≤ tr.length
    · rw [List.take_append_eq_append_take]
      have : n - tr.length = 0 := Nat.sub_eq_zero_of_le hn
      rw [this]
      simpa using ih
    · have hlen : (tr ++ [e]).length ≤ n := by
        rw [List.length_append]
        simpa using Nat.lt_of_not_le hn
      rw [List.take_of_length_le hlen]
      exact ⟨s2, ChainTrace.snoc h1 h2⟩

theorem nodup_getElem?_unique (l : List Nat) (hnd : l.Nodup) (m j x : Nat)
    (hm : l[m]? = some x) (hj : l[j]? = some x) : m = j := by
  rcases List.getElem?_eq_some_iff.mp hm with ⟨hm1, hm2⟩
  rcases List.getElem?_eq_some_iff.mp hj with ⟨hj1, hj2⟩
  exact (List.Nodup.getElem_inj_iff hnd).mp (hm2.trans hj2.symm)

theorem mem_take_index (l : List Nat) (k x : Nat) (h : x ∈ l.take k) :
    ∃ m, m < k ∧ l[m]? = some x := by
  rcases List.mem_iff_getElem?.mp h with ⟨m, hm⟩
  have hmk : m < k := by
    by_contra hge
    have hnone : (l.take k)[m]? = none := by
      apply List.getElem?_eq_none
      rw [List.length_take]
      exact Nat.le_trans (Nat.min_le_left _ _) (Nat.le_of_not_lt hge)
    rw [hnone] at hm
    cases hm
  refine ⟨m, hmk, ?_⟩
  rw [← List.getElem?_take_of_lt hmk]
  exact hm

theorem mem_take_of_index (l : List Nat) (k m x : Nat) (hmk : m < k)
    (h : l[m]? = some x) : x ∈ l.take k := by
  apply List.mem_iff_getElem?.mpr
  refine ⟨m, ?_⟩
  rw [List.getElem?_take_of_lt hmk]
  exact h

/-- FIFO consequence of the chain invariant: if task `A` sits before task `B`
in a user's queue, any trace in which `B` has started already contains the
completion of `A`. -/
theorem fifo_of_chainInv (q0 : Nat → List Nat) (tr : List ChainEv)
    (s : ChainState) (u i j A B : Nat)
    (hinv : chainInv q0 tr s) (hnd : (q0 u).Nodup)
    (hA : (q0 u)[i]? = some A) (hB : (q0 u)[j]? = some B) (hij : i < j)
    (hmem : ChainEv.starts u B ∈ tr) : ChainEv.dones u A ∈ tr := by
  obtain ⟨k, hk, hcase⟩ := hinv u
  have hmemproj : ChainEv.starts u B ∈ projUser u tr := by
    unfold projUser
    exact List.mem_filter.mpr ⟨hmem, by simp [evUser]⟩
  apply List.mem_of_mem_filter (p := fun e => evUser e == u)
  show ChainEv.dones u A ∈ projUser u tr
  rcases hcase with ⟨h1, h2, h3⟩ | ⟨t, rest, h1, h2, h3, h4⟩
  · rw [h3] at hmemproj ⊢
    have hBk : B ∈ (q0 u).take k := (mem_canonEvents_starts u B _).mp hmemproj
    obtain ⟨m, hmk, hm⟩ := mem_take_index _ _ _ hBk
    have hjm : m = j := nodup_getElem?_unique _ hnd m j B hm hB
    subst hjm
    have hik : i < k := Nat.lt_trans hij hmk
    exact (mem_canonEvents_dones u A _).mpr (mem_take_of_index _ _ _ _ hik hA)
  · rw [h4] at hmemproj ⊢
    rcases List.mem_append.mp hmemproj with hin | hin
    · have hBk : B ∈ (q0 u).take k := (mem_canonEvents_starts u B _).mp hin
      obtain ⟨m, hmk, hm⟩ := mem_take_index _ _ _ hBk
      have hjm : m = j := nodup_getElem?_unique _ hnd m j B hm hB
      subst hjm
      have hik : i < k := Nat.lt_trans hij hmk
      exact List.mem_append.mpr
        (Or.inl ((mem_canonEvents_dones u A _).mpr (mem_take_of_index _ _ _ _ hik hA)))
    · have hBt : B = t := by
        simpa using hin
      have hgetk : (q0 u)[k]? = some t := by
        have h6 := List.getElem?_drop (q0 u) k 0
        rw [h2] at h6
        simpa using h6.symm
      have hjk : j = k := by
        apply nodup_getElem?_unique _ hnd j k B hB
        rw [hBt]
        exact hgetk
      have hik : i < k := hjk ▸ hij
      exact List.mem_append.mpr
        (Or.inl ((mem_canonEvents_dones u A _).mpr (mem_take_of_index _ _ _ _ hik hA)))

/-- One deterministic step of the chain semantics, used to build concrete
executions: `none` when the event is not enabled in the given state. -/
def chainStepRun (s : ChainState) (e : ChainEv) : Option ChainState :=
  match e with
  | ChainEv.starts u t =>
    match s.running u with
    | some _ => none
    | none =>
      match s.pending u with
      | [] => none
      | t0 :: rest =>
        if t0 = t then
          some ⟨fun v => if v = u then rest else s.pending v,
                fun v => if v = u then some t else s.running v⟩
        else none
  | ChainEv.dones u t =>
    match s.running u with
    | some t0 =>
      if t0 = t then
        some ⟨s.pending, fun v => if v = u then none else s.running v⟩
      else none
    | none => none

/-- Run a whole event list deterministically. -/
def chainRun (s : ChainState) : List ChainEv → Option ChainState
  | [] => some s
  | e :: es =>
    match chainStepRun s e with
    | none => none
    | some s1 => chainRun s1 es

theorem chainStep_of_run (s : ChainState) (e : ChainEv) (s1 : ChainState)
    (h : chainStepRun s e = some s1) : ChainStep s e s1 := by
  cases e with
  | starts u t =>
    unfold chainStepRun at h
    cases hrun : s.running u with
    | some t0 =>
      simp only [hrun] at h
      cases h
    | none =>
      simp only [hrun] at h
      cases hpend : s.pending u with
      | nil =>
        simp only [hpend] at h
        cases h
      | cons t0 rest =>
        simp only [hpend] at h
        by_cases ht : t0 = t
        · rw [if_pos ht] at h
          injection h with h2
          rw [← h2, ← ht]
          exact ChainStep.starts hrun hpend
        · rw [if_neg ht] at h
          cases h
  | dones u t =>
    unfold chainStepRun at h
    cases hrun : s.running u with
    | some t0 =>
      simp only [hrun] at h
      by_cases ht : t0 = t
      · rw [if_pos ht] at h
        injection h with h2
        rw [← h2]
        rw [ht] at hrun
        exact ChainStep.dones hrun
      · rw [if_neg ht] at h
        cases h
    | none =>
      simp only [hrun] at h
      cases h

theorem chainTrace_append (s s1 s2 : ChainState) (tr1 tr2 : List ChainEv)
    (h1 : ChainTrace s tr1 s1) (h2 : ChainTrace s1 tr2 s2) :
    ChainTrace s (tr1 ++ tr2) s2 := by
  induction h2 with
  | nil =>
    rw [List.append_nil]
    exact h1
  | @snoc sa sb tr e h2a h2b ih =>
    rw [← List.append_assoc]
    exact ChainTrace.snoc ih h2b

theorem chainTrace_of_run (evs : List ChainEv) (s s1 : ChainState)
    (h : chainRun s evs = some s1) : ChainTrace s evs s1 := by
  induction evs generalizing s with
  | nil =>
    unfold chainRun at h
    injection h with h2
    rw [h2]
    exact ChainTrace.nil s1
  | cons e es ih =>
    unfold chainRun at h
    cases hstep : chainStepRun s e with
    | none =>
      simp only [hstep] at h
      cases h
    | some smid =>
      simp only [hstep] at h
      have hone : ChainTrace s ([] ++ [e]) smid :=
        ChainTrace.snoc (ChainTrace.nil s) (chainStep_of_run s e smid hstep)
      have := chainTrace_append s smid s1 [e] es hone (ih smid h)
      simpa using this

/-- The two-user demo queues: user 0 has task 10 queued, user 1 has task 20. -/
def chainDemoQueues : Nat → List Nat :=
  fun u => if u = 0 then [10] else if u = 1 then [20] else []

/-- Claim C2: per-user delivery tasks run one at a time in enqueue (FIFO)
order — in every execution of the per-user chains, if task `A` precedes task
`B` in a user's queue then at every point of the trace where `B`'s callback
has started, `A`'s callback has already completed; and tasks of different
users are not ordered relative to each other (both interleavings of two
users' tasks are admissible executions). -/
theorem claim_C2_delivery_fifo :
    (∀ (q0 : Nat → List Nat) (tr : List ChainEv) (s : ChainState)
        (u i j A B : Nat),
      ChainTrace (chainInit q0) tr s → (q0 u).Nodup →
      (q0 u)[i]? = some A → (q0 u)[j]? = some B → i < j →
      ∀ n, ChainEv.starts u B ∈ tr.take n → ChainEv.dones u A ∈ tr.take n) ∧
    (∃ s1 s2 : ChainState,
      ChainTrace (chainInit chainDemoQueues)
        [ChainEv.starts 0 10, ChainEv.dones 0 10,
          ChainEv.starts 1 20, ChainEv.dones 1 20] s1 ∧
      ChainTrace (chainInit chainDemoQueues)
        [ChainEv.starts 1 20, ChainEv.dones 1 20,
          ChainEv.starts 0 10, ChainEv.dones 0 10] s2) := by
  constructor
  · intro q0 tr s u i j A B htr hnd hA hB hij n hmem
    obtain ⟨s1, htr1⟩ := chainTrace_take _ _ _ htr n
    exact fifo_of_chainInv q0 (tr.take n) s1 u i j A B
      (chainInv_of_trace q0 _ _ htr1) hnd hA hB hij hmem
  · exact ⟨_, _, chainTrace_of_run _ _ _ rfl, chainTrace_of_run _ _ _ rfl⟩

theorem claim_C2_witness :
    ChainEv.dones 0 3
      ∈ ([ChainEv.starts 0 3, ChainEv.dones 0 3, ChainEv.starts 0 4].take 3) := by
  obtain ⟨sfin, htr⟩ :
      ∃ sfin, ChainTrace (chainInit (fun u => if u = 0 then [3, 4] else []))
        [ChainEv.starts 0 3, ChainEv.dones 0 3, ChainEv.starts 0 4] sfin :=
    ⟨_, chainTrace_of_run _ _ _ rfl⟩
  exact claim_C2_delivery_fifo.1 (fun u => if u = 0 then [3, 4] else []) _ sfin
    0 0 1 3 4 htr (by decide) (by decide) (by decide) (by decide) 3 (by decide)

/-- The staleness threshold of `WebSocketManager`: `5 * 60 * 1000`
milliseconds, used both by the `processQueue` front-of-queue check
(`src/services/sessionManager.js` line 164) and by `setReconnectTimeout`
(line 115). -/
def staleMs : Nat := 5 * 60 * 1000

/-- A queued delivery task: an identifier and its enqueue timestamp
(`timestamp: Date.now()` in `queueMessage`, lines 136-148). -/
structure WTask where
  id : Nat
  ts : Nat
deriving DecidableEq

/-- State of the `WebSocketManager` queues: the current clock, each user's
`messageQueues` entry (`none` after `messageQueues.delete(userId)`), and the
task whose callback is currently being awaited, if any. -/
structure WQState where
  now : Nat
  queues : Nat → Option (List WTask)
  running : Nat → Option WTask

/-- Observable events of the timed queue: a callback starting at a time, a
callback finishing (the `queue.shift(); message.resolve()`), and a promise
rejected by the staleness check (`message.reject(new Error('Message
timeout'))`). -/
inductive WEv where
  | begins (u tid tm : Nat)
  | finishes (u tid : Nat)
  | rejects (u tid tm : Nat)
deriving DecidableEq

/-- Steps of the timed queue, embedded from `processQueue`
(`src/services/sessionManager.js` lines 151-181) and `setReconnectTimeout`
(lines 104-118):
* `tick` — time passes;
* `evict` — the front task is examined and found stale
  (`Date.now() - message.timestamp > 5*60*1000`): it is shifted off and its
  promise rejected;
* `begins` — the front task is examined, is not stale, and its callback is
  invoked (`await message.callback()`);
* `finishes` — the awaited callback returns: `queue.shift()` and resolve;
* `dropQueue` — the reconnect timeout fires: `messageQueues.delete(userId)`,
  discarding all pending tasks WITHOUT settling their promises. -/
inductive WStep : WQState → List WEv → WQState → Prop where
  | tick {s : WQState} (d : Nat) :
      WStep s [] ⟨s.now + d, s.queues, s.running⟩
  | evict {s : WQState} {u : Nat} {t : WTask} {rest : List WTask}
      (hq : s.queues u = some (t :: rest)) (hr : s.running u = none)
      (hstale : t.ts + staleMs < s.now) :
      WStep s [WEv.rejects u t.id s.now]
        ⟨s.now, fun v => if v = u then some rest else s.queues v, s.running⟩
  | begins {s : WQState} {u : Nat} {t : WTask} {rest : List WTask}
      (hq : s.queues u = some (t :: rest)) (hr : s.running u = none)
      (hfresh : s.now ≤ t.ts + staleMs) :
      WStep s [WEv.begins u t.id s.now]
        ⟨s.now, s.queues, fun v => if v = u then some t else s.running v⟩
  | finishes {s : WQState} {u : Nat} {t : WTask} {rest : List WTask}
      (hr : s.running u = some t) (hq : s.queues u = some (t :: rest)) :
      WStep s [WEv.finishes u t.id]
        ⟨s.now, fun v => if v = u then some rest else s.queues v,
         fun v => if v = u then none else s.running v⟩
  | dropQueue {s : WQState} {u : Nat} (hr : s.running u = none) :
      WStep s []
        ⟨s.now, fun v => if v = u then none else s.queues v, s.running⟩

/-- Executions of the timed queue. -/
inductive WTrace : WQState → List WEv → WQState → Prop where
  | nil (s : WQState) : WTrace s [] s
  | snoc {s s1 s2 : WQState} {tr evs : List WEv}
      (h1 : WTrace s tr s1) (h2 : WStep s1 evs s2) :
      WTrace s (tr ++ evs) s2

/-- Initial state at clock `n0` with each user's queued tasks. -/
def winit (n0 : Nat) (q : Nat → List WTask) : WQState :=
  ⟨n0, fun u => some (q u), fun _ => none⟩

/-- The visible task list of a user (empty once the queue was deleted). -/
def wcur (s : WQState) (u : Nat) : List WTask :=
  (s.queues u).getD []

/-- Structural invariant: each queue is a suffix of the user's initial
tasks, and a running task sits at the front of its queue (it is shifted off
only when it finishes). -/
def wstruct (q0 : Nat → List WTask) (s : WQState) : Prop :=
  ∀ u, wcur s u <:+ q0 u ∧
    (∀ t, s.running u = some t → ∃ rest, s.queues u = some (t :: rest))

theorem wstruct_step (q0 : Nat → List WTask) (s s2 : WQState) (evs : List WEv)
    (h : wstruct q0 s) (hstep : WStep s evs s2) : wstruct q0 s2 := by
  cases hstep with
  | tick d => exact h
  | evict hq hr hstale =>
    rename_i u t rest
    intro v
    by_cases hv : v = u
    · subst hv
      constructor
      · have h1 := (h v).1
        rw [wcur, hq] at h1
        have h2 : wcur (⟨s.now, fun w => if w = v then some rest else s.queues w,
            s.running⟩ : WQState) v = rest := by
          simp [wcur]
        rw [h2]
        exact List.IsSuffix.trans (List.suffix_cons t rest) h1
      · intro t2 hrun
        rw [show (⟨s.now, fun w => if w = v then some rest else s.queues w,
            s.running⟩ : WQState).running v = s.running v from rfl, hr] at hrun
        cases hrun
    · have hnv := h v
      constructor
      · have : wcur (⟨s.now, fun w => if w = u then some rest else s.queues w,
            s.running⟩ : WQState) v = wcur s v := by
          simp [wcur, hv]
        rw [this]
        exact hnv.1
      · intro t2 hrun
        obtain ⟨r2, hr2⟩ := hnv.2 t2 hrun
        exact ⟨r2, by simpa [hv] using hr2⟩
  | begins hq hr hfresh =>
    rename_i u t rest
    intro v
    by_cases hv : v = u
    · subst hv
      refine ⟨(h v).1, ?_⟩
      intro t2 hrun
      have hrun2 : some t = some t2 := by simpa using hrun
      injection hrun2 with ht2
      exact ⟨rest, by rw [← ht2]; exact hq⟩
    · refine ⟨(h v).1, ?_⟩
      intro t2 hrun
      simp only [] at hrun
      rw [if_neg hv] at hrun
      exact (h v).2 t2 hrun
  | finishes hr hq =>
    rename_i u t rest
    intro v
    by_cases hv : v = u
    · subst hv
      constructor
      · have h1 := (h v).1
        rw [wcur, hq] at h1
        have h2 : wcur (⟨s.now, fun w => if w = v then some rest else s.queues w,
            fun w => if w = v then none else s.running w⟩ : WQState) v = rest := by
          simp [wcur]
        rw [h2]
        exact List.IsSuffix.trans (List.suffix_cons t rest) h1
      · intro t2 hrun
        exact absurd hrun (by simp)
    · constructor
      · have : wcur (⟨s.now, fun w => if w = u then some rest else s.queues w,
            fun w => if w = u then none else s.running w⟩ : WQState) v = wcur s v := by
          simp [wcur, hv]
        rw [this]
        exact (h v).1
      · intro t2 hrun
        simp only [] at hrun
        rw [if_neg hv] at hrun
        obtain ⟨r2, hr2⟩ := (h v).2 t2 hrun
        exact ⟨r2, by simpa [hv] using hr2⟩
  | dropQueue hr =>
    rename_i u
    intro v
    by_cases hv : v = u
    · subst hv
      constructor
      · have h2 : wcur (⟨s.now, fun w => if w = v then none else s.queues w,
            s.running⟩ : WQState) v = [] := by
          simp [wcur]
        rw [h2]
        exact List.nil_suffix
      · intro t2 hrun
        rw [show (⟨s.now, fun w => if w = v then none else s.queues w,
            s.running⟩ : WQState).running v = s.running v from rfl, hr] at hrun
        cases hrun
    · constructor
      · have : wcur (⟨s.now, fun w => if w = u then none else s.queues w,
            s.running⟩ : WQState) v = wcur s v := by
          simp [wcur, hv]
        rw [this]
        exact (h v).1
      · intro t2 hrun
        obtain ⟨r2, hr2⟩ := (h v).2 t2 hrun
        exact ⟨r2, by simpa [hv] using hr2⟩

theorem wstruct_init (n0 : Nat) (q0 : Nat → List WTask) :
    wstruct q0 (winit n0 q0) := by
  intro u
  constructor
  · simp [wcur, winit]
  · intro t hrun
    cases hrun

theorem wstruct_of_trace (n0 : Nat) (q0 : Nat → List WTask) (tr : List WEv)
    (s : WQState) (h : WTrace (winit n0 q0) tr s) : wstruct q0 s := by
  induction h with
  | nil => exact wstruct_init n0 q0
  | snoc h1 h2 ih => exact wstruct_step q0 _ _ _ ih h2

/-- Every `begins` event concerns a task of the user's initial queue and
happens no later than 5 minutes after that task's enqueue timestamp: the
front-of-queue check executes a task only when `now - timestamp` is within
the threshold. -/
theorem wbegins_within (n0 : Nat) (q0 : Nat → List WTask) (tr : List WEv)
    (s : WQState) (h : WTrace (winit n0 q0) tr s) :
    ∀ u tid tm, WEv.begins u tid tm ∈ tr →
      ∃ t, t ∈ q0 u ∧ t.id = tid ∧ tm ≤ t.ts + staleMs := by
  induction h with
  | nil =>
    intro u tid tm hmem
    cases hmem
  | @snoc s1 s2 tr evs h1 h2 ih =>
    intro u tid tm hmem
    rcases List.mem_append.mp hmem with hin | hin
    · exact ih u tid tm hin
    · cases h2 with
      | tick d => cases hin
      | evict hq hr hstale => simp at hin
      | begins hq hr hfresh =>
        rename_i u2 t rest
        have heq : WEv.begins u tid tm = WEv.begins u2 t.id s1.now := by
          simpa using hin
        injection heq with e1 e2 e3
        subst e1
        subst e2
        subst e3
        have hstr := wstruct_of_trace n0 q0 _ _ h1
        have hmem2 : t ∈ wcur s1 u := by
          rw [wcur, hq]
          simp
        exact ⟨t, (hstr u).1.subset hmem2, rfl, hfresh⟩
      | finishes hr hq => simp at hin
      | dropQueue hr => cases hin

/-- Every rejected promise concerns a task of the user's initial queue whose
age at rejection time exceeded the 5-minute threshold. -/
theorem wrejects_stale (n0 : Nat) (q0 : Nat → List WTask) (tr : List WEv)
    (s : WQState) (h : WTrace (winit n0 q0) tr s) :
    ∀ u tid tm, WEv.rejects u tid tm ∈ tr →
      ∃ t, t ∈ q0 u ∧ t.id = tid ∧ t.ts + staleMs < tm := by
  induction h with
  | nil =>
    intro u tid tm hmem
    cases hmem
  | @snoc s1 s2 tr evs h1 h2 ih =>
    intro u tid tm hmem
    rcases List.mem_append.mp hmem with hin | hin
    · exact ih u tid tm hin
    · cases h2 with
      | tick d => cases hin
      | evict hq hr hstale =>
        rename_i u2 t rest
        have heq : WEv.rejects u tid tm = WEv.rejects u2 t.id s1.now := by
          simpa using hin
        injection heq with e1 e2 e3
        subst e1
        subst e2
        subst e3
        have hstr := wstruct_of_trace n0 q0 _ _ h1
        have hmem2 : t ∈ wcur s1 u := by
          rw [wcur, hq]
          simp
        exact ⟨t, (hstr u).1.subset hmem2, rfl, hstale⟩
      | begins hq hr hfresh => simp at hin
      | finishes hr hq => simp at hin
      | dropQueue hr => cases hin

/-- The task's callback has started at some time in the trace. -/
def wBegun (u tid : Nat) (tr : List WEv) : Prop :=
  ∃ tm, WEv.begins u tid tm ∈ tr

/-- The task's promise has been rejected by the staleness check. -/
def wRejected (u tid : Nat) (tr : List WEv) : Prop :=
  ∃ tm, WEv.rejects u tid tm ∈ tr

theorem wBegun_snoc_rejects (u tid u2 tid2 tm : Nat) (tr : List WEv) :
    wBegun u tid (tr ++ [WEv.rejects u2 tid2 tm]) ↔ wBegun u tid tr := by
  unfold wBegun
  simp

theorem wBegun_snoc_finishes (u tid u2 tid2 : Nat) (tr : List WEv) :
    wBegun u tid (tr ++ [WEv.finishes u2 tid2]) ↔ wBegun u tid tr := by
  unfold wBegun
  simp

theorem wBegun_snoc_begins (u tid u2 tid2 tm : Nat) (tr : List WEv) :
    wBegun u tid (tr ++ [WEv.begins u2 tid2 tm])
      ↔ wBegun u tid tr ∨ (u = u2 ∧ tid = tid2) := by
  unfold wBegun
  simp only [List.mem_append, List.mem_singleton]
  constructor
  · rintro ⟨tm2, h | h⟩
    · exact Or.inl ⟨tm2, h⟩
    · injection h with e1 e2 e3
      exact Or.inr ⟨e1, e2⟩
  · rintro (⟨tm2, h⟩ | ⟨h1, h2⟩)
    · exact ⟨tm2, Or.inl h⟩
    · subst h1
      subst h2
      exact ⟨tm, Or.inr rfl⟩

theorem wRejected_snoc_begins (u tid u2 tid2 tm : Nat) (tr : List WEv) :
    wRejected u tid (tr ++ [WEv.begins u2 tid2 tm]) ↔ wRejected u tid tr := by
  unfold wRejected
  simp

theorem wRejected_snoc_finishes (u tid u2 tid2 : Nat) (tr : List WEv) :
    wRejected u tid (tr ++ [WEv.finishes u2 tid2]) ↔ wRejected u tid tr := by
  unfold wRejected
  simp

theorem wRejected_snoc_rejects (u tid u2 tid2 tm : Nat) (tr : List WEv) :
    wRejected u tid (tr ++ [WEv.rejects u2 tid2 tm])
      ↔ wRejected u tid tr ∨ (u = u2 ∧ tid = tid2) := by
  unfold wRejected
  simp only [List.mem_append, List.mem_singleton]
  constructor
  · rintro ⟨tm2, h | h⟩
    · exact Or.inl ⟨tm2, h⟩
    · injection h with e1 e2 e3
      exact Or.inr ⟨e1, e2⟩
  · rintro (⟨tm2, h⟩ | ⟨h1, h2⟩)
    · exact ⟨tm2, Or.inl h⟩
    · subst h1
      subst h2
      exact ⟨tm, Or.inr rfl⟩

theorem wtask_id_inj (l : List WTask) (hnd : (l.map WTask.id).Nodup)
    (t t2 : WTask) (ht : t ∈ l) (ht2 : t2 ∈ l) (hid : t.id = t2.id) : t = t2 :=
  List.inj_on_of_nodup_map hnd ht ht2 hid

theorem front_notin_rest (t : WTask) (rest : List WTask)
    (hnd : ((t :: rest).map WTask.id).Nodup) : t ∉ rest := by
  rw [List.map_cons, List.nodup_cons] at hnd
  intro hmem
  exact hnd.1 (List.mem_map_of_mem WTask.id hmem)

/-- Per-task phase invariant: a queued-but-not-running task has neither begun
nor been rejected; a running task has not been rejected; a task gone from
the queue has not both begun and been rejected.  Together these give mutual
exclusion of execution and timeout rejection. -/
def wphaseInv (q0 : Nat → List WTask) (tr : List WEv) (s : WQState) : Prop :=
  ∀ u t, t ∈ q0 u →
    (t ∈ wcur s u ∧ s.running u ≠ some t ∧
      ¬wBegun u t.id tr ∧ ¬wRejected u t.id tr) ∨
    (s.running u = some t ∧ ¬wRejected u t.id tr) ∨
    (t ∉ wcur s u ∧ s.running u ≠ some t ∧
      ¬(wBegun u t.id tr ∧ wRejected u t.id tr))

theorem wphaseInv_init (n0 : Nat) (q0 : Nat → List WTask) :
    wphaseInv q0 [] (winit n0 q0) := by
  intro u t ht
  refine Or.inl ⟨?_, ?_, ?_, ?_⟩
  · simpa [wcur, winit] using ht
  · intro h
    cases h
  · rintro ⟨tm, h⟩
    cases h
  · rintro ⟨tm, h⟩
    cases h

theorem wphaseInv_step (q0 : Nat → List WTask) (tr evs : List WEv)
    (s s2 : WQState) (hnd : ∀ v, ((q0 v).map WTask.id).Nodup)
    (hstruct : wstruct q0 s) (hinv : wphaseInv q0 tr s)
    (hstep : WStep s evs s2) : wphaseInv q0 (tr ++ evs) s2 := by
  cases hstep with
  | tick d =>
    rw [List.append_nil]
    exact hinv
  | dropQueue hr =>
    rename_i u2
    rw [List.append_nil]
    intro u t ht
    by_cases hv : u = u2
    · subst hv
      rcases hinv u t ht with ⟨h1, h2, h3, h4⟩ | ⟨h1, h2⟩ | ⟨h1, h2, h3⟩
      · refine Or.inr (Or.inr ⟨?_, h2, ?_⟩)
        · simp [wcur]
        · rintro ⟨hb, hrj⟩
          exact h3 hb
      · rw [hr] at h1
        cases h1
      · exact Or.inr (Or.inr ⟨by simp [wcur], h2, h3⟩)
    · have hcur : wcur (⟨s.now, fun w => if w = u2 then none else s.queues w,
          s.running⟩ : WQState) u = wcur s u := by
        simp [wcur, hv]
      rcases hinv u t ht with ⟨h1, h2, h3, h4⟩ | ⟨h1, h2⟩ | ⟨h1, h2, h3⟩
      · exact Or.inl ⟨by rw [hcur]; exact h1, h2, h3, h4⟩
      · exact Or.inr (Or.inl ⟨h1, h2⟩)
      · exact Or.inr (Or.inr ⟨by rw [hcur]; exact h1, h2, h3⟩)
  | evict hq hr hstale =>
    rename_i u2 t0 rest
    intro u t ht
    have ht0q : t0 ∈ q0 u2 := by
      apply (hstruct u2).1.subset
      rw [wcur, hq]
      simp
    by_cases hv : u = u2
    · subst hv
      have hqnd : ((wcur s u).map WTask.id).Nodup :=
        (hnd u).sublist ((hstruct u).1.sublist.map _)
      have hcur : wcur (⟨s.now, fun w => if w = u then some rest else s.queues w,
          s.running⟩ : WQState) u = rest := by
        simp [wcur]
      by_cases hteq : t = t0
      · subst hteq
        rcases hinv u t ht with ⟨h1, h2, h3, h4⟩ | ⟨h1, h2⟩ | ⟨h1, h2, h3⟩
        · refine Or.inr (Or.inr ⟨?_, h2, ?_⟩)
          · rw [hcur]
            rw [wcur, hq] at hqnd
            exact front_notin_rest t rest (by simpa using hqnd)
          · rintro ⟨hb, hrj⟩
            exact h3 ((wBegun_snoc_rejects u t.id u t.id s.now tr).mp hb)
        · rw [hr] at h1
          cases h1
        · exact absurd (by rw [wcur, hq]; simp : t ∈ wcur s u) h1
      · have hid : t.id ≠ t0.id := fun h =>
          hteq (wtask_id_inj (q0 u) (hnd u) t t0 ht ht0q h)
        have hrj2 : ∀ trx : List WEv,
            wRejected u t.id (trx ++ [WEv.rejects u t0.id s.now])
              ↔ wRejected u t.id trx := by
          intro trx
          rw [wRejected_snoc_rejects]
          constructor
          · rintro (h | ⟨h1, h2⟩)
            · exact h
            · exact absurd h2 hid
          · exact Or.inl
        rcases hinv u t ht with ⟨h1, h2, h3, h4⟩ | ⟨h1, h2⟩ | ⟨h1, h2, h3⟩
        · refine Or.inl ⟨?_, h2, ?_, ?_⟩
          · rw [hcur]
            rw [wcur, hq] at h1
            rcases List.mem_cons.mp h1 with h | h
            · exact absurd h hteq
            · exact h
          · intro hb
            exact h3 ((wBegun_snoc_rejects u t.id u t0.id s.now tr).mp hb)
          · intro hrj
            exact h4 ((hrj2 tr).mp hrj)
        · rw [hr] at h1
          cases h1
        · refine Or.inr (Or.inr ⟨?_, h2, ?_⟩)
          · rw [hcur]
            intro hmem
            apply h1
            rw [wcur, hq]
            exact List.mem_cons_of_mem t0 hmem
          · rintro ⟨hb, hrj⟩
            exact h3 ⟨(wBegun_snoc_rejects u t.id u t0.id s.now tr).mp hb,
              (hrj2 tr).mp hrj⟩
    · have hcur : wcur (⟨s.now, fun w => if w = u2 then some rest else s.queues w,
          s.running⟩ : WQState) u = wcur s u := by
        simp [wcur, hv]
      have hbx : ∀ trx : List WEv,
          wBegun u t.id (trx ++ [WEv.rejects u2 t0.id s.now]) ↔ wBegun u t.id trx :=
        fun trx => wBegun_snoc_rejects u t.id u2 t0.id s.now trx
      have hrx : ∀ trx : List WEv,
          wRejected u t.id (trx ++ [WEv.rejects u2 t0.id s.now])
            ↔ wRejected u t.id trx := by
        intro trx
        rw [wRejected_snoc_rejects]
        constructor
        · rintro (h | ⟨h1, h2⟩)
          · exact h
          · exact absurd h1 hv
        · exact Or.inl
      rcases hinv u t ht with ⟨h1, h2, h3, h4⟩ | ⟨h1, h2⟩ | ⟨h1, h2, h3⟩
      · exact Or.inl ⟨by rw [hcur]; exact h1, h2,
          fun hb => h3 ((hbx tr).mp hb), fun hrj => h4 ((hrx tr).mp hrj)⟩
      · exact Or.inr (Or.inl ⟨h1, fun hrj => h2 ((hrx tr).mp hrj)⟩)
      · exact Or.inr (Or.inr ⟨by rw [hcur]; exact h1, h2,
          fun ⟨hb, hrj⟩ => h3 ⟨(hbx tr).mp hb, (hrx tr).mp hrj⟩⟩)
  | begins hq hr hfresh =>
    rename_i u2 t0 rest
    intro u t ht
    have ht0q : t0 ∈ q0 u2 := by
      apply (hstruct u2).1.subset
      rw [wcur, hq]
      simp
    by_cases hv : u = u2
    · subst hv
      have hcur : wcur (⟨s.now, s.queues,
          fun w => if w = u then some t0 else s.running w⟩ : WQState) u
            = wcur s u := by
        simp [wcur]
      by_cases hteq : t = t0
      · subst hteq
        rcases hinv u t ht with ⟨h1, h2, h3, h4⟩ | ⟨h1, h2⟩ | ⟨h1, h2, h3⟩
        · refine Or.inr (Or.inl ⟨by simp, ?_⟩)
          intro hrj
          exact h4 ((wRejected_snoc_begins u t.id u t.id s.now tr).mp hrj)
        · rw [hr] at h1
          cases h1
        · exact absurd (by rw [wcur, hq]; simp : t ∈ wcur s u) h1
      · have hid : t.id ≠ t0.id := fun h =>
          hteq (wtask_id_inj (q0 u) (hnd u) t t0 ht ht0q h)
        have hbx : ∀ trx : List WEv,
            wBegun u t.id (trx ++ [WEv.begins u t0.id s.now])
              ↔ wBegun u t.id trx := by
          intro trx
          rw [wBegun_snoc_begins]
          constructor
          · rintro (h | ⟨h1, h2⟩)
            · exact h
            · exact absurd h2 hid
          · exact Or.inl
        have hrunne : (fun w => if w = u then some t0 else s.running w) u
            ≠ some t := by
          simp only [if_pos rfl]
          intro h
          injection h with h2
          exact hteq h2.symm
        rcases hinv u t ht with ⟨h1, h2, h3, h4⟩ | ⟨h1, h2⟩ | ⟨h1, h2, h3⟩
        · exact Or.inl ⟨by rw [hcur]; exact h1, hrunne,
            fun hb => h3 ((hbx tr).mp hb),
            fun hrj => h4 ((wRejected_snoc_begins u t.id u t0.id s.now tr).mp hrj)⟩
        · rw [hr] at h1
          cases h1
        · exact Or.inr (Or.inr ⟨by rw [hcur]; exact h1, hrunne,
            fun ⟨hb, hrj⟩ => h3 ⟨(hbx tr).mp hb,
              (wRejected_snoc_begins u t.id u t0.id s.now tr).mp hrj⟩⟩)
    · have hcur : wcur (⟨s.now, s.queues,
          fun w => if w = u2 then some t0 else s.running w⟩ : WQState) u
            = wcur s u := by
        simp [wcur]
      have hrune : (⟨s.now, s.queues,
          fun w => if w = u2 then some t0 else s.running w⟩ : WQState).running u
          = s.running u := by
        simp [hv]
      have hbx : ∀ trx : List WEv,
          wBegun u t.id (trx ++ [WEv.begins u2 t0.id s.now])
            ↔ wBegun u t.id trx := by
        intro trx
        rw [wBegun_snoc_begins]
        constructor
        · rintro (h | ⟨h1, h2⟩)
          · exact h
          · exact absurd h1 hv
        · exact Or.inl
      rcases hinv u t ht with ⟨h1, h2, h3, h4⟩ | ⟨h1, h2⟩ | ⟨h1, h2, h3⟩
      · exact Or.inl ⟨by rw [hcur]; exact h1, by rw [hrune]; exact h2,
          fun hb => h3 ((hbx tr).mp hb),
          fun hrj => h4 ((wRejected_snoc_begins u t.id u2 t0.id s.now tr).mp hrj)⟩
      · exact Or.inr (Or.inl ⟨by rw [hrune]; exact h1,
          fun hrj => h2 ((wRejected_snoc_begins u t.id u2 t0.id s.now tr).mp hrj)⟩)
      · exact Or.inr (Or.inr ⟨by rw [hcur]; exact h1, by rw [hrune]; exact h2,
          fun ⟨hb, hrj⟩ => h3 ⟨(hbx tr).mp hb,
            (wRejected_snoc_begins u t.id u2 t0.id s.now tr).mp hrj⟩⟩)
  | finishes hr hq =>
    rename_i u2 t0 rest
    intro u t ht
    have ht0q : t0 ∈ q0 u2 := by
      apply (hstruct u2).1.subset
      rw [wcur, hq]
      simp
    have hbx : ∀ trx : List WEv,
        wBegun u t.id (trx ++ [WEv.finishes u2 t0.id]) ↔ wBegun u t.id trx :=
      fun trx => wBegun_snoc_finishes u t.id u2 t0.id trx
    have hrx : ∀ trx : List WEv,
        wRejected u t.id (trx ++ [WEv.finishes u2 t0.id]) ↔ wRejected u t.id trx :=
      fun trx => wRejected_snoc_finishes u t.id u2 t0.id trx
    by_cases hv : u = u2
    · subst hv
      have hqnd : ((wcur s u).map WTask.id).Nodup :=
        (hnd u).sublist ((hstruct u).1.sublist.map _)
      have hcur : wcur (⟨s.now, fun w => if w = u then some rest else s.queues w,
          fun w => if w = u then none else s.running w⟩ : WQState) u = rest := by
        simp [wcur]
      have hrunnone : (⟨s.now, fun w => if w = u then some rest else s.queues w,
          fun w => if w = u then none else s.running w⟩ : WQState).running u
          = (none : Option WTask) := by
        simp
      by_cases hteq : t = t0
      · subst hteq
        rcases hinv u t ht with ⟨h1, h2, h3, h4⟩ | ⟨h1, h2⟩ | ⟨h1, h2, h3⟩
        · exact absurd hr h2
        · refine Or.inr (Or.inr ⟨?_, ?_, ?_⟩)
          · rw [hcur]
            rw [wcur, hq] at hqnd
            exact front_notin_rest t rest (by simpa using hqnd)
          · rw [hrunnone]
            intro h
            cases h
          · rintro ⟨hb, hrj⟩
            exact h2 ((hrx tr).mp hrj)
        · exact absurd hr h2
      · rcases hinv u t ht with ⟨h1, h2, h3, h4⟩ | ⟨h1, h2⟩ | ⟨h1, h2, h3⟩
        · refine Or.inl ⟨?_, ?_, fun hb => h3 ((hbx tr).mp hb),
            fun hrj => h4 ((hrx tr).mp hrj)⟩
          · rw [hcur]
            rw [wcur, hq] at h1
            rcases List.mem_cons.mp h1 with h | h
            · exact absurd h hteq
            · exact h
          · rw [hrunnone]
            intro h
            cases h
        · rw [hr] at h1
          injection h1 with h1b
          exact absurd h1b.symm hteq
        · refine Or.inr (Or.inr ⟨?_, ?_, fun ⟨hb, hrj⟩ =>
            h3 ⟨(hbx tr).mp hb, (hrx tr).mp hrj⟩⟩)
          · rw [hcur]
            intro hmem
            apply h1
            rw [wcur, hq]
            exact List.mem_cons_of_mem t0 hmem
          · rw [hrunnone]
            intro h
            cases h
    · have hcur : wcur (⟨s.now, fun w => if w = u2 then some rest else s.queues w,
          fun w => if w = u2 then none else s.running w⟩ : WQState) u
            = wcur s u := by
        simp [wcur, hv]
      have hrune : (⟨s.now, fun w => if w = u2 then some rest else s.queues w,
          fun w => if w = u2 then none else s.running w⟩ : WQState).running u
          = s.running u := by
        simp [hv]
      rcases hinv u t ht with ⟨h1, h2, h3, h4⟩ | ⟨h1, h2⟩ | ⟨h1, h2, h3⟩
      · exact Or.inl ⟨by rw [hcur]; exact h1, by rw [hrune]; exact h2,
          fun hb => h3 ((hbx tr).mp hb), fun hrj => h4 ((hrx tr).mp hrj)⟩
      · exact Or.inr (Or.inl ⟨by rw [hrune]; exact h1,
          fun hrj => h2 ((hrx tr).mp hrj)⟩)
      · exact Or.inr (Or.inr ⟨by rw [hcur]; exact h1, by rw [hrune]; exact h2,
          fun ⟨hb, hrj⟩ => h3 ⟨(hbx tr).mp hb, (hrx tr).mp hrj⟩⟩)

theorem wphaseInv_of_trace (n0 : Nat) (q0 : Nat → List WTask) (tr : List WEv)
    (s : WQState) (hnd : ∀ v, ((q0 v).map WTask.id).Nodup)
    (h : WTrace (winit n0 q0) tr s) : wphaseInv q0 tr s := by
  induction h with
  | nil => exact wphaseInv_init n0 q0
  | @snoc s1 s2 trx evs h1 h2 ih =>
    exact wphaseInv_step q0 trx evs s1 s2 hnd
      (wstruct_of_trace n0 q0 trx s1 h1) ih h2

/-- Step descriptors used to build concrete timed-queue executions. -/
inductive WCmd where
  | cmdTick (d : Nat)
  | cmdEvict (u : Nat)
  | cmdBegin (u : Nat)
  | cmdFinish (u : Nat)
  | cmdDrop (u : Nat)

/-- One deterministic step, `none` when the command is not enabled. -/
def wStepRun (s : WQState) : WCmd → Option (WQState × List WEv)
  | WCmd.cmdTick d => some (⟨s.now + d, s.queues, s.running⟩, [])
  | WCmd.cmdEvict u =>
    match s.queues u, s.running u with
    | some (t :: rest), none =>
      if t.ts + staleMs < s.now then
        some (⟨s.now, fun v => if v = u then some rest else s.queues v, s.running⟩,
          [WEv.rejects u t.id s.now])
      else none
    | _, _ => none
  | WCmd.cmdBegin u =>
    match s.queues u, s.running u with
    | some (t :: rest), none =>
      if s.now ≤ t.ts + staleMs then
        some (⟨s.now, s.queues, fun v => if v = u then some t else s.running v⟩,
          [WEv.begins u t.id s.now])
      else none
    | _, _ => none
  | WCmd.cmdFinish u =>
    match s.queues u, s.running u with
    | some (t :: rest), some t2 =>
      if t2 = t then
        some (⟨s.now, fun v => if v = u then some rest else s.queues v,
          fun v => if v = u then none else s.running v⟩,
          [WEv.finishes u t.id])
      else none
    | _, _ => none
  | WCmd.cmdDrop u =>
    match s.running u with
    | none =>
      some (⟨s.now, fun v => if v = u then none else s.queues v, s.running⟩, [])
    | some _ => none

/-- Run a command list, collecting emitted events. -/
def wRun (s : WQState) : List WCmd → Option (WQState × List WEv)
  | [] => some (s, [])
  | c :: cs =>
    match wStepRun s c with
    | none => none
    | some (s1, evs1) =>
      match wRun s1 cs with
      | none => none
      | some (s2, evs2) => some (s2, evs1 ++ evs2)

theorem wStep_of_run (s : WQState) (c : WCmd) (s1 : WQState) (evs : List WEv)
    (h : wStepRun s c = some (s1, evs)) : WStep s evs s1 := by
  cases c with
  | cmdTick d =>
    unfold wStepRun at h
    injection h with h2
    injection h2 with h3 h4
    rw [← h3, ← h4]
    exact WStep.tick d
  | cmdEvict u =>
    unfold wStepRun at h
    cases hq : s.queues u with
    | none =>
      simp only [hq] at h
      cases h
    | some l =>
      cases l with
      | nil =>
        simp only [hq] at h
        cases h
      | cons t rest =>
        cases hr : s.running u with
        | some t2 =>
          simp only [hq, hr] at h
          cases h
        | none =>
          simp only [hq, hr] at h
          by_cases hc : t.ts + staleMs < s.now
          · rw [if_pos hc] at h
            injection h with h2
            injection h2 with h3 h4
            rw [← h3, ← h4]
            exact WStep.evict hq hr hc
          · rw [if_neg hc] at h
            cases h
  | cmdBegin u =>
    unfold wStepRun at h
    cases hq : s.queues u with
    | none =>
      simp only [hq] at h
      cases h
    | some l =>
      cases l with
      | nil =>
        simp only [hq] at h
        cases h
      | cons t rest =>
        cases hr : s.running u with
        | some t2 =>
          simp only [hq, hr] at h
          cases h
        | none =>
          simp only [hq, hr] at h
          by_cases hc : s.now ≤ t.ts + staleMs
          · rw [if_pos hc] at h
            injection h with h2
            injection h2 with h3 h4
            rw [← h3, ← h4]
            exact WStep.begins hq hr hc
          · rw [if_neg hc] at h
            cases h
  | cmdFinish u =>
    unfold wStepRun at h
    cases hq : s.queues u with
    | none =>
      simp only [hq] at h
      cases h
    | some l =>
      cases l with
      | nil =>
        simp only [hq] at h
        cases h
      | cons t rest =>
        cases hr : s.running u with
        | none =>
          simp only [hq, hr] at h
          cases h
        | some t2 =>
          simp only [hq, hr] at h
          by_cases hc : t2 = t
          · rw [if_pos hc] at h
            injection h with h2
            injection h2 with h3 h4
            rw [← h3, ← h4]
            rw [hc] at hr
            exact WStep.finishes hr hq
          · rw [if_neg hc] at h
            cases h
  | cmdDrop u =>
    unfold wStepRun at h
    cases hr : s.running u with
    | some t =>
      simp only [hr] at h
      cases h
    | none =>
      simp only [hr] at h
      injection h with h2
      injection h2 with h3 h4
      rw [← h3, ← h4]
      exact WStep.dropQueue hr

theorem wTrace_append (s s1 s2 : WQState) (tr1 tr2 : List WEv)
    (h1 : WTrace s tr1 s1) (h2 : WTrace s1 tr2 s2) :
    WTrace s (tr1 ++ tr2) s2 := by
  induction h2 with
  | nil =>
    rw [List.append_nil]
    exact h1
  | @snoc sa sb trx evs h2a h2b ih =>
    rw [← List.append_assoc]
    exact WTrace.snoc ih h2b

theorem wTrace_of_run (cmds : List WCmd) (s s1 : WQState) (evs : List WEv)
    (h : wRun s cmds = some (s1, evs)) : WTrace s evs s1 := by
  induction cmds generalizing s evs with
  | nil =>
    unfold wRun at h
    injection h with h2
    injection h2 with h3 h4
    rw [← h3, ← h4]
    exact WTrace.nil s
  | cons c cs ih =>
    unfold wRun at h
    cases hstep : wStepRun s c with
    | none =>
      simp only [hstep] at h
      cases h
    | some p =>
      obtain ⟨smid, evs1⟩ := p
      simp only [hstep] at h
      cases hrest : wRun smid cs with
      | none =>
        simp only [hrest] at h
        cases h
      | some p2 =>
        obtain ⟨s3, evs2⟩ := p2
        simp only [hrest] at h
        injection h with h2
        injection h2 with h3 h4
        rw [← h4]
        rw [h3] at hrest
        have hone : WTrace s ([] ++ evs1) smid :=
          WTrace.snoc (WTrace.nil s) (wStep_of_run s c smid evs1 hstep)
        exact wTrace_append s smid s1 evs1 evs2 (by simpa using hone)
          (ih smid evs2 hrest)

/-- No event can ever concern a user whose queue entry has been deleted and
who has nothing running: there is no re-enqueue in this system. -/
theorem wdead_user (u : Nat) (s : WQState) (tr : List WEv) (s2 : WQState)
    (h : WTrace s tr s2) (hq : s.queues u = none) (hr : s.running u = none) :
    s2.queues u = none ∧ s2.running u = none ∧
      ∀ tid tm, WEv.begins u tid tm ∉ tr ∧ WEv.rejects u tid tm ∉ tr := by
  induction h with
  | nil => exact ⟨hq, hr, fun tid tm => ⟨List.not_mem_nil _, List.not_mem_nil _⟩⟩
  | @snoc s1 s2 trx evs h1 h2 ih =>
    obtain ⟨ihq, ihr, ihev⟩ := ih
    have hnew : s2.queues u = none ∧ s2.running u = none ∧
        ∀ tid tm, WEv.begins u tid tm ∉ evs ∧ WEv.rejects u tid tm ∉ evs := by
      cases h2 with
      | tick d =>
        exact ⟨ihq, ihr, fun tid tm => ⟨List.not_mem_nil _, List.not_mem_nil _⟩⟩
      | evict hq2 hr2 hstale =>
        rename_i u2 t rest
        have hne : u ≠ u2 := by
          intro he
          rw [← he, ihq] at hq2
          cases hq2
        refine ⟨by simp [hne, ihq], ihr, fun tid tm => ⟨?_, ?_⟩⟩
        · intro h
          simp at h
        · intro h
          rw [List.mem_singleton] at h
          injection h with e1
          exact hne e1
      | begins hq2 hr2 hfresh =>
        rename_i u2 t rest
        have hne : u ≠ u2 := by
          intro he
          rw [← he, ihq] at hq2
          cases hq2
        refine ⟨ihq, by simp [hne, ihr], fun tid tm => ⟨?_, ?_⟩⟩
        · intro h
          rw [List.mem_singleton] at h
          injection h with e1
          exact hne e1
        · intro h
          simp at h
      | finishes hr2 hq2 =>
        rename_i u2 t rest
        have hne : u ≠ u2 := by
          intro he
          rw [← he, ihq] at hq2
          cases hq2
        refine ⟨by simp [hne, ihq], by simp [hne, ihr],
          fun tid tm => ⟨?_, ?_⟩⟩
        · intro h
          simp at h
        · intro h
          simp at h
      | dropQueue hr2 =>
        rename_i u2
        by_cases hvu : u = u2
        · subst hvu
          exact ⟨by simp, ihr, fun tid tm => ⟨List.not_mem_nil _, List.not_mem_nil _⟩⟩
        · exact ⟨by simp [hvu, ihq], ihr,
            fun tid tm => ⟨List.not_mem_nil _, List.not_mem_nil _⟩⟩
    refine ⟨hnew.1, hnew.2.1, fun tid tm => ⟨?_, ?_⟩⟩
    · intro hmem
      rcases List.mem_append.mp hmem with hin | hin
      · exact (ihev tid tm).1 hin
      · exact (hnew.2.2 tid tm).1 hin
    · intro hmem
      rcases List.mem_append.mp hmem with hin | hin
      · exact (ihev tid tm).2 hin
      · exact (hnew.2.2 tid tm).2 hin

/-- One queued task (id 0, enqueued at time 0) for user 1. -/
def wq1 : Nat → List WTask :=
  fun u => if u = 1 then [⟨0, 0⟩] else []

/-- The state after 300001 ms pass and the reconnect timeout deletes user 1's
queue: the queued task is discarded with its promise never settled. -/
def wdeadState : WQState :=
  ⟨0 + 300001, fun v => if v = 1 then none else some (wq1 v), fun _ => none⟩

/-- Claim C7, counterexample: a task older than 5 minutes is NOT necessarily
rejected with a timeout: if the user's connection dies, `setReconnectTimeout`
deletes the whole queue (`messageQueues.delete(userId)`) without settling any
promise.  Concretely: user 1's task (enqueued at time 0) waits past the
5-minute threshold, the queue is dropped, the observed trace contains no
events at all, and no continuation of it can ever emit a begins or rejects
event for that task. -/
theorem claim_C7_counterexample :
    WTrace (winit 0 wq1) [] wdeadState ∧
    staleMs < wdeadState.now ∧
    wdeadState.queues 1 = none ∧
    (∀ tr2 s3, WTrace wdeadState tr2 s3 →
      ∀ tm, WEv.begins 1 0 tm ∉ tr2 ∧ WEv.rejects 1 0 tm ∉ tr2) := by
  refine ⟨wTrace_of_run [WCmd.cmdTick 300001, WCmd.cmdDrop 1] _ _ _ rfl,
    by decide, rfl, ?_⟩
  intro tr2 s3 htr2 tm
  exact (wdead_user 1 wdeadState tr2 s3 htr2 rfl rfl).2.2 0 tm

/-- Claim C7, amended: in the timed queue, (1) a task is never both executed
and timeout-rejected; (2) a callback that does execute begins within 5
minutes of its enqueue timestamp (the front-of-queue staleness check); (3) a
rejected promise belongs to a task whose age exceeded 5 minutes at rejection
time.  However (see the counterexample) a stale task may instead be silently
discarded by the reconnect-timeout queue deletion, with its promise never
rejected. -/
theorem claim_C7_amended :
    (∀ (n0 : Nat) (q0 : Nat → List WTask) (tr : List WEv) (s : WQState)
        (u : Nat) (t : WTask),
      (∀ v, ((q0 v).map WTask.id).Nodup) → WTrace (winit n0 q0) tr s →
      t ∈ q0 u → ¬(wBegun u t.id tr ∧ wRejected u t.id tr)) ∧
    (∀ (n0 : Nat) (q0 : Nat → List WTask) (tr : List WEv) (s : WQState)
        (u tid tm : Nat),
      WTrace (winit n0 q0) tr s → WEv.begins u tid tm ∈ tr →
      ∃ t, t ∈ q0 u ∧ t.id = tid ∧ tm ≤ t.ts + staleMs) ∧
    (∀ (n0 : Nat) (q0 : Nat → List WTask) (tr : List WEv) (s : WQState)
        (u tid tm : Nat),
      WTrace (winit n0 q0) tr s → WEv.rejects u tid tm ∈ tr →
      ∃ t, t ∈ q0 u ∧ t.id = tid ∧ t.ts + staleMs < tm) := by
  refine ⟨?_, ?_, ?_⟩
  · intro n0 q0 tr s u t hnd htr ht
    rcases wphaseInv_of_trace n0 q0 tr s hnd htr u t ht with
      ⟨h1, h2, h3, h4⟩ | ⟨h1, h2⟩ | ⟨h1, h2, h3⟩
    · rintro ⟨hb, hrj⟩
      exact h3 hb
    · rintro ⟨hb, hrj⟩
      exact h2 hrj
    · exact h3
  · intro n0 q0 tr s u tid tm htr hmem
    exact wbegins_within n0 q0 tr s htr u tid tm hmem
  · intro n0 q0 tr s u tid tm htr hmem
    exact wrejects_stale n0 q0 tr s htr u tid tm hmem

/-- Two queued tasks for user 0: task 5 and task 6, both enqueued at time 0. -/
def wq2 : Nat → List WTask :=
  fun u => if u = 0 then [⟨5, 0⟩, ⟨6, 0⟩] else []

theorem claim_C7_amended_witness :
    ¬(wBegun 0 6 [WEv.begins 0 5 0, WEv.finishes 0 5, WEv.rejects 0 6 300001] ∧
      wRejected 0 6 [WEv.begins 0 5 0, WEv.finishes 0 5, WEv.rejects 0 6 300001]) ∧
    (∃ t, t ∈ wq2 0 ∧ WTask.id t = 5 ∧ 0 ≤ t.ts + staleMs) ∧
    (∃ t, t ∈ wq2 0 ∧ WTask.id t = 6 ∧ t.ts + staleMs < 300001) := by
  obtain ⟨sfin, htr⟩ :
      ∃ sfin, wRun (winit 0 wq2)
          [WCmd.cmdBegin 0, WCmd.cmdFinish 0, WCmd.cmdTick 300001, WCmd.cmdEvict 0]
        = some (sfin, [WEv.begins 0 5 0, WEv.finishes 0 5,
            WEv.rejects 0 6 300001]) :=
    ⟨_, rfl⟩
  have htrace := wTrace_of_run _ _ _ _ htr
  have hnd : ∀ v, ((wq2 v).map WTask.id).Nodup := by
    intro v
    by_cases hv : v = 0
    · simp [wq2, hv]
    · simp [wq2, hv]
  refine ⟨?_, ?_, ?_⟩
  · exact claim_C7_amended.1 0 wq2 _ sfin 0 ⟨6, 0⟩ hnd htrace (by decide)
  · exact claim_C7_amended.2.1 0 wq2 _ sfin 0 5 0 htrace (by decide)
  · exact claim_C7_amended.2.2 0 wq2 _ sfin 0 6 300001 htrace (by decide)

end QuizBot

